import Mathlib

/-!
# kinesis-tailf: shard resolution, shard iteration and the fan-in writer

A shallow embedding of `kinesis.go` (package `ktail`).

* `determinShardIds` and `toHashKey` (the hash router) are pure once the
  result of the `DescribeStream` call is given.
* `iterate` is a loop over the replies of the stream service.  The replies
  are given as a list of `Poll`s; a list that is used up before the loop
  returns leaves the iterator in `Status.running`.  Sends on the channel are
  recorded, in order, in `IterState.ch`.
* `writer` consumes the payloads received from the channel, interleaved in
  any way with the ticks of the periodic flusher, and ends with the deferred
  flush.

Library code the source calls (`crypto/md5`, `math/big`, `bufio`) is
embedded next to its caller; the aggregate decoder, the msgpack decoder and
the JSON encoder are parameters.
-/

set_option maxRecDepth 1000000

namespace Ktail

/-! ## Data -/

/-- A byte slice; every element stands for one byte. -/
abbrev Bytes := List Nat

/-- Go `error` values, kept as their message. -/
abbrev Error := String

/-- A `time.Time` instant, in nanoseconds since the zero time
(January 1, year 1, 00:00:00 UTC). -/
abbrev Time := Int

/-- Go `Time.IsZero`. -/
def timeIsZero (t : Time) : Bool := decide (t = 0)

/-- Go `t.Before(u)`: the instant `t` is strictly before `u`. -/
def timeBefore (t u : Time) : Bool := decide (t < u)

/-- Go `[]byte(s)`: the UTF-8 bytes of a string. -/
def stringBytes (s : String) : Bytes :=
  (s.data.flatMap String.utf8EncodeChar).map UInt8.toNat

/-- The separator `LF`, a single newline byte. -/
def LF : Bytes := [10]

/-- Go `var maxEmptyIterates = 100`. -/
def maxEmptyIterates : Nat := 100

/-- Go `type IterateParams struct`. -/
structure IterateParams where
  StreamName : String
  ShardID : String
  StartTimestamp : Time
  EndTimestamp : Time
deriving DecidableEq

/-- Go `type App struct`, without the service client and its configuration. -/
structure App where
  StreamName : String
  AppendLF : Bool
  DecodeAsMsgPack : Bool
deriving DecidableEq

/-- Go `types.HashKeyRange`: both bounds are decimal text. -/
structure HashKeyRange where
  StartingHashKey : String
  EndingHashKey : String
deriving DecidableEq

/-- Go `types.Shard`, with the fields the source reads.  The source
dereferences them without a check; a missing field is not modelled. -/
structure Shard where
  ShardId : String
  HashKeyRange : HashKeyRange
deriving DecidableEq

/-! ## crypto/md5 (RFC 1321) on 32-bit words held in `Nat` -/

/-- Reduction to a 32-bit word. -/
def word32 (x : Nat) : Nat := x % 2 ^ 32

/-- Left rotation of a 32-bit word. -/
def rotl32 (x c : Nat) : Nat :=
  word32 ((x <<< c) ||| (word32 x >>> (32 - c)))

/-- The per-round shift amounts. -/
def md5Shifts : List Nat :=
  [7, 12, 17, 22, 7, 12, 17, 22, 7, 12, 17, 22, 7, 12, 17, 22,
   5, 9, 14, 20, 5, 9, 14, 20, 5, 9, 14, 20, 5, 9, 14, 20,
   4, 11, 16, 23, 4, 11, 16, 23, 4, 11, 16, 23, 4, 11, 16, 23,
   6, 10, 15, 21, 6, 10, 15, 21, 6, 10, 15, 21, 6, 10, 15, 21]

/-- The sine table of RFC 1321. -/
def md5Table : List Nat :=
  [0xd76aa478, 0xe8c7b756, 0x242070db, 0xc1bdceee,
   0xf57c0faf, 0x4787c62a, 0xa8304613, 0xfd469501,
   0x698098d8, 0x8b44f7af, 0xffff5bb1, 0x895cd7be,
   0x6b901122, 0xfd987193, 0xa679438e, 0x49b40821,
   0xf61e2562, 0xc040b340, 0x265e5a51, 0xe9b6c7aa,
   0xd62f105d, 0x02441453, 0xd8a1e681, 0xe7d3fbc8,
   0x21e1cde6, 0xc33707d6, 0xf4d50d87, 0x455a14ed,
   0xa9e3e905, 0xfcefa3f8, 0x676f02d9, 0x8d2a4c8a,
   0xfffa3942, 0x8771f681, 0x6d9d6122, 0xfde5380c,
   0xa4beea44, 0x4bdecfa9, 0xf6bb4b60, 0xbebfbc70,
   0x289b7ec6, 0xeaa127fa, 0xd4ef3085, 0x04881d05,
   0xd9d4d039, 0xe6db99e5, 0x1fa27cf8, 0xc4ac5665,
   0xf4292244, 0x432aff97, 0xab9423a7, 0xfc93a039,
   0x655b59c3, 0x8f0ccc92, 0xffeff47d, 0x85845dd1,
   0x6fa87e4f, 0xfe2ce6e0, 0xa3014314, 0x4e0811a1,
   0xf7537e82, 0xbd3af235, 0x2ad7d2bb, 0xeb86d391]

/-- The `n` low bytes of `x`, least significant first. -/
def leBytes (n x : Nat) : Bytes :=
  (List.range n).map (fun i => (x >>> (8 * i)) % 256)

/-- The number whose little-endian bytes are `bs`. -/
def leWord (bs : Bytes) : Nat :=
  bs.foldr (fun b acc => b + 256 * acc) 0

/-- Message padding: a `0x80` byte, zeros up to 56 modulo 64, then the bit
length as 8 little-endian bytes. -/
def md5Pad (msg : Bytes) : Bytes :=
  msg ++ 0x80 :: List.replicate ((119 - msg.length % 64) % 64) 0
    ++ leBytes 8 ((8 * msg.length) % 2 ^ 64)

/-- The four chaining words. -/
structure Md5State where
  a : Nat
  b : Nat
  c : Nat
  d : Nat
deriving DecidableEq

/-- The initial chaining value. -/
def md5Init : Md5State := ⟨0x67452301, 0xefcdab89, 0x98badcfe, 0x10325476⟩

/-- One of the 64 operations on a block whose sixteen words are `m`. -/
def md5Round (m : List Nat) (s : Md5State) (i : Nat) : Md5State :=
  let nb := 0xffffffff ^^^ s.b
  let nd := 0xffffffff ^^^ s.d
  let f :=
    if i < 16 then (s.b &&& s.c) ||| (nb &&& s.d)
    else if i < 32 then (s.d &&& s.b) ||| (nd &&& s.c)
    else if i < 48 then s.b ^^^ s.c ^^^ s.d
    else s.c ^^^ (s.b ||| nd)
  let g :=
    if i < 16 then i
    else if i < 32 then (5 * i + 1) % 16
    else if i < 48 then (3 * i + 5) % 16
    else (7 * i) % 16
  let f1 := word32 (f + s.a + md5Table.getD i 0 + m.getD g 0)
  ⟨s.d, word32 (s.b + rotl32 f1 (md5Shifts.getD i 0)), s.b, s.c⟩

/-- The compression of one 64-byte block. -/
def md5Block (s : Md5State) (block : Bytes) : Md5State :=
  let m := (List.range 16).map (fun j => leWord ((block.drop (4 * j)).take 4))
  let t := (List.range 64).foldl (md5Round m) s
  ⟨word32 (s.a + t.a), word32 (s.b + t.b), word32 (s.c + t.c), word32 (s.d + t.d)⟩

/-- Go `md5.Sum`: the 16-byte digest. -/
def md5Sum (msg : Bytes) : Bytes :=
  let padded := md5Pad msg
  let s := (List.range (padded.length / 64)).foldl
    (fun st j => md5Block st ((padded.drop (64 * j)).take 64)) md5Init
  leBytes 4 s.a ++ leBytes 4 s.b ++ leBytes 4 s.c ++ leBytes 4 s.d

/-! ## math/big -/

/-- Go `(*big.Int).SetBytes` on a zero receiver: the bytes read as an unsigned
big-endian number. -/
def bigSetBytes (bs : Bytes) : Int :=
  ((bs.foldl (fun acc b => acc * 256 + b) 0 : Nat) : Int)

/-- The value of a decimal digit, if the character is one. -/
def digitValue (c : Char) : Option Nat :=
  if '0' ≤ c ∧ c ≤ '9' then some (c.toNat - '0'.toNat) else none

/-- The number spelled by the leading decimal digits of `cs`, continuing
from `acc`; scanning stops at the first character that is no digit. -/
def scanDigits : List Char → Nat → Nat
  | [], acc => acc
  | c :: cs, acc =>
    match digitValue c with
    | some d => scanDigits cs (acc * 10 + d)
    | none => acc

/-- The receiver after `(*big.Int).SetString(s, 10)` on a fresh `big.Int`:
an optional sign followed by decimal digits.  The source discards the
success flag and reads the receiver.  For text that is not a decimal numeral
Go leaves the receiver unspecified; here it keeps the digits read before the
offending character. -/
def bigSetString (s : String) : Int :=
  match s.data with
  | '-' :: cs => - (scanDigits cs 0 : Int)
  | '+' :: cs => (scanDigits cs 0 : Int)
  | cs => (scanDigits cs 0 : Int)

/-! ## Hash router -/

/-- Go `toHashKey`: the MD5 digest of the key as an unsigned big-endian number. -/
def toHashKey (s : String) : Int :=
  bigSetBytes (md5Sum (stringBytes s))

/-- The bound `start` that the scan parses from a shard
(`start.SetString(*s.HashKeyRange.StartingHashKey, 10)`). -/
def startKey (s : Shard) : Int := bigSetString s.HashKeyRange.StartingHashKey

/-- The bound `end` that the scan parses from a shard
(`end.SetString(*s.HashKeyRange.EndingHashKey, 10)`). -/
def endKey (s : Shard) : Int := bigSetString s.HashKeyRange.EndingHashKey

/-- The first loop of `determinShardIds` (empty key): every ID is appended. -/
def allShardIds : List Shard → List String → List String
  | [], shardIds => shardIds
  | s :: rest, shardIds => allShardIds rest (shardIds ++ [s.ShardId])

/-- The second loop of `determinShardIds`: append the first shard whose
parsed range holds `hashKey`, then `break`. -/
def scanShards (hashKey : Int) : List Shard → List String → List String
  | [], shardIds => shardIds
  | s :: rest, shardIds =>
    if startKey s ≤ hashKey ∧ hashKey ≤ endKey s then shardIds ++ [s.ShardId]
    else scanShards hashKey rest shardIds

/-- Go `App.determinShardIds`; `describeStream` is the reply of the
`DescribeStream` call (the shards of the description, or the error). -/
def determinShardIds (describeStream : Except Error (List Shard)) (shardKey : String) :
    Except Error (List String) :=
  match describeStream with
  | .error err => .error err
  | .ok shards =>
    if shardKey = "" then .ok (allShardIds shards [])
    else .ok (scanShards (toHashKey shardKey) shards [])

/-! ## Shard iterator -/

/-- Go `types.Record`, with the fields the source reads. -/
structure Record where
  ApproximateArrivalTimestamp : Time
  Data : Bytes
deriving DecidableEq

/-- Go `kinesis.GetRecordsOutput`. -/
structure GetRecordsOutput where
  Records : List Record
  NextShardIterator : Option String
deriving DecidableEq

/-- A sub-record of an aggregate (`kpl.Record`), with its payload. -/
structure SubRecord where
  Data : Bytes
deriving DecidableEq

/-- The container decoded by `kpl.Unmarshal` (`kpl.AggregatedRecord`). -/
structure AggregatedRecord where
  Records : List SubRecord
deriving DecidableEq

/-- The aggregate decoder `kpl.Unmarshal`, a parameter of the iterator. -/
abbrev Unmarshal := Bytes → Except Error AggregatedRecord

/-- Go `types.ShardIteratorType`, the two values the source uses. -/
inductive ShardIteratorType where
  | latest
  | atTimestamp
deriving DecidableEq

/-- Go `kinesis.GetShardIteratorInput`. -/
structure GetShardIteratorInput where
  ShardId : String
  StreamName : String
  ShardIteratorType : ShardIteratorType
  Timestamp : Option Time
deriving DecidableEq

/-- One turn of the polling loop as the service answers it: the reply of
`GetRecords`, and the reading `time.Now()` gives if the loop asks for it. -/
structure Poll where
  getRecords : Except Error GetRecordsOutput
  now : Time

/-- The variables of `iterate` that change while it runs: the iterator
token, the counter captured by `isOver`, and the payloads sent on `ch`. -/
structure IterState where
  itr : Option String
  emptyHits : Nat
  ch : List Bytes
deriving DecidableEq

/-- Whether `iterate` has returned (with `nil` or an error) or is still in
its loop, waiting for the next reply. -/
inductive Status where
  | running
  | returned (err : Option Error)
deriving DecidableEq

/-- The request `in` that `iterate` builds. -/
def shardIteratorInput (app : App) (p : IterateParams) : GetShardIteratorInput :=
  if timeIsZero p.StartTimestamp then
    ⟨p.ShardID, app.StreamName, .latest, none⟩
  else
    ⟨p.ShardID, app.StreamName, .atTimestamp, some p.StartTimestamp⟩

/-- The closure `isOver`, with the captured counter passed in and out:
`isOver p emptyHits t empty` is the returned flag and the counter after the
call.  `empty` is the variadic argument. -/
def isOver (p : IterateParams) (emptyHits : Nat) (t : Time) (empty : List Bool) : Bool × Nat :=
  if timeIsZero p.EndTimestamp then
    (false, emptyHits)
  else if 0 < empty.length ∧ empty.head? = some true then
    (decide (maxEmptyIterates ≤ emptyHits + 1), emptyHits + 1)
  else
    (timeBefore p.EndTimestamp t, emptyHits)

/-- The sends of `for _, r := range ar.Records { ch <- r.Data }`. -/
def sendAll : List SubRecord → List Bytes → List Bytes
  | [], ch => ch
  | r :: rest, ch => sendAll rest (ch ++ [r.Data])

/-- The loop `for _, record := range rr.Records`.  The flag is `true` when
the loop left through `return nil`. -/
def iterateRecords (unmarshal : Unmarshal) (p : IterateParams) :
    List Record → IterState → Bool × IterState
  | [], st => (false, st)
  | record :: rest, st =>
    let over := isOver p st.emptyHits record.ApproximateArrivalTimestamp []
    let st := { st with emptyHits := over.2 }
    if over.1 then (true, st)
    else
      match unmarshal record.Data with
      | .ok ar => iterateRecords unmarshal p rest { st with ch := sendAll ar.Records st.ch }
      | .error _ => iterateRecords unmarshal p rest { st with ch := st.ch ++ [record.Data] }

/-- The polling loop `for { ... }` of `iterate`, run on the replies `polls`. -/
def iterateLoop (unmarshal : Unmarshal) (p : IterateParams) :
    List Poll → IterState → Status × IterState
  | [], st => (.running, st)
  | poll :: rest, st =>
    match poll.getRecords with
    | .error err => (.returned (some err), st)
    | .ok rr =>
      let st := { st with itr := rr.NextShardIterator }
      match iterateRecords unmarshal p rr.Records st with
      | (true, st) => (.returned none, st)
      | (false, st) =>
        if rr.Records.length = 0 then
          let over := isOver p st.emptyHits poll.now [true]
          let st := { st with emptyHits := over.2 }
          if over.1 then (.returned none, st)
          else iterateLoop unmarshal p rest st
        else iterateLoop unmarshal p rest st

/-- Go `App.iterate`: `getShardIterator` answers the `GetShardIterator` call,
`polls` are the replies to the successive `GetRecords` calls. -/
def iterate (unmarshal : Unmarshal) (app : App)
    (getShardIterator : GetShardIteratorInput → Except Error (Option String))
    (p : IterateParams) (polls : List Poll) : Status × IterState :=
  match getShardIterator (shardIteratorInput app p) with
  | .error err => (.returned (some err), ⟨none, 0, []⟩)
  | .ok itr => iterateLoop unmarshal p polls ⟨itr, 0, []⟩

/-- What one raw record contributes to the channel once it has passed the
termination check: the sub-records of the aggregate, or the raw payload. -/
def expand (unmarshal : Unmarshal) (record : Record) : List Bytes :=
  match unmarshal record.Data with
  | .ok ar => ar.Records.map (fun r => r.Data)
  | .error _ => [record.Data]

/-- The records of the successful replies, in poll order then batch order. -/
def pollRecords : List Poll → List Record
  | [] => []
  | poll :: rest =>
    match poll.getRecords with
    | .ok rr => rr.Records ++ pollRecords rest
    | .error _ => pollRecords rest

/-- A reply that succeeded. -/
def Poll.succeeded (poll : Poll) : Bool :=
  match poll.getRecords with
  | .ok _ => true
  | .error _ => false

/-- A reply that succeeded with zero records. -/
def Poll.isEmpty (poll : Poll) : Bool :=
  match poll.getRecords with
  | .ok rr => decide (rr.Records.length = 0)
  | .error _ => false

/-- The number of successful replies with zero records. -/
def countEmpty (polls : List Poll) : Nat := polls.countP Poll.isEmpty

/-! ## bufio.Writer over the sink -/

/-- A `bufio.Writer`: `buf` is the buffered data `b.buf[:b.n]`, `wr` the
bytes already handed to the underlying `os.Stdout`. -/
structure BufWriter where
  buf : Bytes
  wr : Bytes
deriving DecidableEq

/-- The default buffer size of `bufio.NewWriter`. -/
def bufSize : Nat := 4096

/-- Go `bufio.NewWriter(os.Stdout)`. -/
def NewWriter : BufWriter := ⟨[], []⟩

/-- Go `Writer.Available`. -/
def BufWriter.Available (w : BufWriter) : Nat := bufSize - w.buf.length

/-- Go `Writer.Buffered`. -/
def BufWriter.Buffered (w : BufWriter) : Nat := w.buf.length

/-- Go `Writer.Flush`: the buffered data goes to the sink. -/
def BufWriter.Flush (w : BufWriter) : BufWriter := ⟨[], w.wr ++ w.buf⟩

/-- One turn of the loop in `Writer.Write`, entered when `p` does not fit:
an empty buffer passes `p` straight to the sink, otherwise the buffer is
filled and flushed.  Returns the writer and what is left of `p`. -/
def BufWriter.writeStep (w : BufWriter) (p : Bytes) : BufWriter × Bytes :=
  if w.Buffered = 0 then
    (⟨w.buf, w.wr ++ p⟩, [])
  else
    let n := min w.Available p.length
    (BufWriter.Flush ⟨w.buf ++ p.take n, w.wr⟩, p.drop n)

/-- The loop `for len(p) > b.Available()` of `Writer.Write`, with at most
`fuel` turns. -/
def BufWriter.writeLoop : Nat → BufWriter → Bytes → BufWriter × Bytes
  | 0, w, p => (w, p)
  | fuel + 1, w, p =>
    if p.length > w.Available then
      let r := w.writeStep p
      BufWriter.writeLoop fuel r.1 r.2
    else (w, p)

/-- Go `Writer.Write(p)`, the sink accepting every byte.  Two turns of the loop
are enough (`writeLoop_done`): after the first the buffer is empty. -/
def BufWriter.Write (w : BufWriter) (p : Bytes) : BufWriter :=
  let r := BufWriter.writeLoop 2 w p
  let n := min r.1.Available r.2.length
  ⟨r.1.buf ++ r.2.take n, r.1.wr⟩

/-! ## Fan-in writer -/

/-- What the writer goroutine and its flusher do, in the order the mutex
lets them: a payload received from the channel, or a tick of the flusher. -/
inductive WriterEvent where
  | recv (b : Bytes)
  | tick
deriving DecidableEq

/-- The re-encoding collaborators: `msgpack.Unmarshal` into a value and
`json.Marshal` of that value. -/
structure Codec (Value : Type) where
  msgpackUnmarshal : Bytes → Except Error Value
  jsonMarshal : Value → Except Error Bytes

/-- The receive loop of `App.writer` with the flusher's ticks interleaved;
the list ending stands for the channel being closed. -/
def writerLoop {Value : Type} (codec : Codec Value) (app : App) :
    List WriterEvent → BufWriter → BufWriter
  | [], w => w
  | .tick :: rest, w => writerLoop codec app rest w.Flush
  | .recv b :: rest, w =>
    if app.DecodeAsMsgPack then
      match codec.msgpackUnmarshal b with
      | .error _ => w
      | .ok decoded =>
        match codec.jsonMarshal decoded with
        | .error _ => w
        | .ok jsonBytes =>
          let w := w.Write jsonBytes
          let w := if app.AppendLF then w.Write LF else w
          writerLoop codec app rest w
    else
      let w := w.Write b
      let w := if app.AppendLF then w.Write LF else w
      writerLoop codec app rest w

/-- Go `App.writer`: the loop, then the deferred `w.Flush()`. -/
def writer {Value : Type} (codec : Codec Value) (app : App) (events : List WriterEvent) :
    BufWriter :=
  (writerLoop codec app events NewWriter).Flush

/-- The payloads among the events, in order of receipt. -/
def payloads : List WriterEvent → List Bytes
  | [] => []
  | .recv b :: rest => b :: payloads rest
  | .tick :: rest => payloads rest

/-- The separator written after each record. -/
def separator (app : App) : Bytes := if app.AppendLF then LF else []

/-- The re-encoding of one payload: msgpack decode, then JSON encode. -/
def reencode {Value : Type} (codec : Codec Value) (b : Bytes) : Option Bytes :=
  match codec.msgpackUnmarshal b with
  | .error _ => none
  | .ok decoded =>
    match codec.jsonMarshal decoded with
    | .error _ => none
    | .ok jsonBytes => some jsonBytes

/-! ## Predicates and sample data used by the statements -/

/-- The test of the scan: the parsed range of `s` holds `h`, both bounds
included. -/
def inRange (h : Int) (s : Shard) : Prop := startKey s ≤ h ∧ h ≤ endKey s

/-- The range test can be computed. -/
instance instDecidableInRange (h : Int) (s : Shard) : Decidable (inRange h s) := by
  unfold inRange; infer_instance

/-- The shard ranges split the key space `0 .. 2^128-1`: every range lies in
it, no two ranges share a key, and every key is in some range (so the ranges
are contiguous). -/
structure PartitionsKeySpace (S : List Shard) : Prop where
  bounds : ∀ s ∈ S, 0 ≤ startKey s ∧ startKey s ≤ endKey s ∧ endKey s < 2 ^ 128
  disjoint : S.Pairwise (fun s t => ∀ h : Int, ¬ (inRange h s ∧ inRange h t))
  cover : ∀ h : Int, 0 ≤ h → h < 2 ^ 128 → ∃ s ∈ S, inRange h s

/-- A stream of two shards that halve the key space. -/
def twoShards : List Shard :=
  [⟨"shardId-000000000000", ⟨"0", "170141183460469231731687303715884105727"⟩⟩,
   ⟨"shardId-000000000001",
     ⟨"170141183460469231731687303715884105728", "340282366920938463463374607431768211455"⟩⟩]

/-- Three shards whose ranges overlap and leave the keys below 5 to the
first two only. -/
def overlapShards : List Shard :=
  [⟨"shardId-a", ⟨"0", "99"⟩⟩,
   ⟨"shardId-b", ⟨"0", "340282366920938463463374607431768211455"⟩⟩,
   ⟨"shardId-c", ⟨"5", "340282366920938463463374607431768211455"⟩⟩]

/-- A toy aggregate decoder: a payload that starts with a zero byte is a
container with one single-byte sub-record per following byte; any other
payload is rejected. -/
def sampleUnmarshal : Unmarshal := fun b =>
  match b with
  | 0 :: rest => .ok ⟨rest.map (fun x => ⟨[x]⟩)⟩
  | _ => .error "not an aggregate"

/-- An application with the separator on and re-encoding off. -/
def sampleApp : App := ⟨"stream", true, false⟩

/-- A service that hands out an iterator token on every request. -/
def sampleService : GetShardIteratorInput → Except Error (Option String) :=
  fun _ => .ok (some "itr-0")

/-- Parameters with neither a start nor an end timestamp. -/
def noEnd : IterateParams := ⟨"stream", "shardId-000000000000", 0, 0⟩

/-- Parameters with the end timestamp at instant 50. -/
def withEnd : IterateParams := ⟨"stream", "shardId-000000000000", 0, 50⟩

/-- A successful reply holding the records `rs`. -/
def okPoll (rs : List Record) : Poll := ⟨.ok ⟨rs, some "itr-next"⟩, 1000⟩

/-- The reading of the stop rule that puts no bound on the empty replies:
whenever the records of the replies split into `before`, none after the end
timestamp, and a first record `r` after it, the iterator has returned `nil`
and has sent exactly the expansions of `before`. -/
def StopsAtFirstLate (um : Unmarshal) (app : App)
    (gsi : GetShardIteratorInput → Except Error (Option String)) (p : IterateParams)
    (polls : List Poll) : Prop :=
  ∀ before r after, pollRecords polls = before ++ r :: after →
    (∀ x ∈ before, ¬ p.EndTimestamp < x.ApproximateArrivalTimestamp) →
    p.EndTimestamp < r.ApproximateArrivalTimestamp →
    (iterate um app gsi p polls).1 = .returned none ∧
    (iterate um app gsi p polls).2.ch = before.flatMap (expand um)

/-- One hundred empty replies, then a record at instant 10, then one at
instant 60. -/
def starvedPolls : List Poll :=
  List.replicate 100 (okPoll []) ++ [okPoll [⟨10, [1, 2]⟩], okPoll [⟨60, [3]⟩]]

/-- One hundred empty replies, two batches with an empty reply between
them, then thirty more empty replies. -/
def mixedPolls : List Poll :=
  List.replicate 100 (okPoll []) ++
    [okPoll [⟨1, [1, 2]⟩, ⟨2, [0, 7, 8]⟩], okPoll [], okPoll [⟨3, [5]⟩]] ++
    List.replicate 30 (okPoll [])

/-- Three empty replies followed by two batches, every record after
instant 50. -/
def latePolls : List Poll :=
  List.replicate 3 (okPoll []) ++ [okPoll [⟨60, [1]⟩, ⟨70, [0, 2, 3]⟩], okPoll [⟨80, [4]⟩]]

/-- Ninety-nine empty replies with a batch of one record after the
fiftieth. -/
def spreadPolls : List Poll :=
  List.replicate 50 (okPoll []) ++ [okPoll [⟨10, [1, 2]⟩]] ++ List.replicate 49 (okPoll [])

/-- Every byte the writer has accepted, in order: the sink followed by the
buffer. -/
def BufWriter.all (w : BufWriter) : Bytes := w.wr ++ w.buf

/-- A toy codec: a one-byte payload below 128 decodes to that number, and
the numbers below 10 encode to their decimal digit. -/
def sampleCodec : Codec Nat where
  msgpackUnmarshal := fun b =>
    match b with
    | [x] => if x < 128 then .ok x else .error "msgpack: unsupported code"
    | _ => .error "msgpack: unexpected length"
  jsonMarshal := fun v => if v < 10 then .ok [48 + v] else .error "json: unsupported value"

/-! # Properties -/

/-! ## Hash router -/

theorem allShardIds_eq (S : List Shard) (acc : List String) :
    allShardIds S acc = acc ++ S.map (fun s => s.ShardId) := by
  induction S generalizing acc with
  | nil => simp [allShardIds]
  | cons s rest ih => simp [allShardIds, ih]

theorem scanShards_none (h : Int) (S : List Shard) (acc : List String)
    (hS : ∀ t ∈ S, ¬ inRange h t) : scanShards h S acc = acc := by
  induction S with
  | nil => simp [scanShards]
  | cons s rest ih =>
    have h1 : ¬ (startKey s ≤ h ∧ h ≤ endKey s) := hS s (by simp)
    simp only [scanShards, if_neg h1]
    exact ih (fun t ht => hS t (by simp [ht]))

theorem scanShards_first (h : Int) (pre : List Shard) (s : Shard) (post : List Shard)
    (acc : List String) (hpre : ∀ t ∈ pre, ¬ inRange h t) (hs : inRange h s) :
    scanShards h (pre ++ s :: post) acc = acc ++ [s.ShardId] := by
  induction pre with
  | nil =>
    have h1 : startKey s ≤ h ∧ h ≤ endKey s := hs
    simp only [List.nil_append, scanShards, if_pos h1]
  | cons t rest ih =>
    have h1 : ¬ (startKey t ≤ h ∧ h ≤ endKey t) := hpre t (by simp)
    simp only [List.cons_append, scanShards, if_neg h1]
    exact ih (fun u hu => hpre u (by simp [hu]))

theorem first_split (h : Int) (S : List Shard) :
    (∀ t ∈ S, ¬ inRange h t) ∨
    ∃ pre s post, S = pre ++ s :: post ∧ (∀ t ∈ pre, ¬ inRange h t) ∧ inRange h s := by
  induction S with
  | nil => left; simp
  | cons s rest ih =>
    by_cases hs : inRange h s
    · right; exact ⟨[], s, rest, rfl, by simp, hs⟩
    · rcases ih with hnone | ⟨pre, u, post, he, hp, hu⟩
      · left
        intro t ht
        rcases List.mem_cons.mp ht with rfl | ht
        · exact hs
        · exact hnone t ht
      · right
        refine ⟨s :: pre, u, post, by simp [he], ?_, hu⟩
        intro t ht
        rcases List.mem_cons.mp ht with rfl | ht
        · exact hs
        · exact hp t ht

theorem leBytes_lt (n x : Nat) : ∀ b ∈ leBytes n x, b < 256 := by
  intro b hb
  simp only [leBytes, List.mem_map] at hb
  obtain ⟨i, _, rfl⟩ := hb
  exact Nat.mod_lt _ (by decide)

theorem leBytes_length (n x : Nat) : (leBytes n x).length = n := by
  simp [leBytes]

theorem md5Sum_length (msg : Bytes) : (md5Sum msg).length = 16 := by
  simp [md5Sum, leBytes_length]

theorem md5Sum_lt (msg : Bytes) : ∀ b ∈ md5Sum msg, b < 256 := by
  intro b hb
  simp only [md5Sum, List.mem_append] at hb
  rcases hb with ((hb | hb) | hb) | hb <;> exact leBytes_lt _ _ b hb

theorem foldl_be_lt (bs : Bytes) (hbs : ∀ b ∈ bs, b < 256) (acc : Nat) :
    bs.foldl (fun acc b => acc * 256 + b) acc < (acc + 1) * 256 ^ bs.length := by
  induction bs generalizing acc with
  | nil => simp
  | cons b rest ih =>
    have hb : b < 256 := hbs b (by simp)
    have h1 := ih (fun c hc => hbs c (by simp [hc])) (acc * 256 + b)
    simp only [List.foldl_cons, List.length_cons]
    calc List.foldl (fun acc b => acc * 256 + b) (acc * 256 + b) rest
        < (acc * 256 + b + 1) * 256 ^ rest.length := h1
      _ ≤ ((acc + 1) * 256) * 256 ^ rest.length := by
          apply Nat.mul_le_mul_right
          omega
      _ = (acc + 1) * 256 ^ (rest.length + 1) := by ring

theorem toHashKey_bounds (k : String) : 0 ≤ toHashKey k ∧ toHashKey k < 2 ^ 128 := by
  constructor
  · exact Int.ofNat_nonneg _
  · have h := foldl_be_lt (md5Sum (stringBytes k)) (md5Sum_lt _) 0
    rw [md5Sum_length] at h
    have h2 : (0 + 1) * 256 ^ 16 = 2 ^ 128 := by norm_num
    rw [h2] at h
    unfold toHashKey bigSetBytes
    exact_mod_cast h

/-- C2: for a non-empty partition key and any shard list, whatever its
ranges, `determinShardIds` returns without error either the one-element list
holding the ID of the first shard, in description order, whose range holds
the hash key (`start ≤ hashKey ≤ end`, both bounds included), or the empty
list when no range holds it; the result never has more than one ID. -/
theorem determinShardIds_first_match (S : List Shard) (k : String) (hk : k ≠ "") :
    ((∃ pre s post, S = pre ++ s :: post ∧ (∀ t ∈ pre, ¬ inRange (toHashKey k) t) ∧
        inRange (toHashKey k) s ∧ determinShardIds (.ok S) k = .ok [s.ShardId]) ∨
      ((∀ t ∈ S, ¬ inRange (toHashKey k) t) ∧ determinShardIds (.ok S) k = .ok [])) ∧
    (∀ ids, determinShardIds (.ok S) k = .ok ids → ids.length ≤ 1) := by
  have hd : determinShardIds (.ok S) k = .ok (scanShards (toHashKey k) S []) := by
    simp [determinShardIds, hk]
  have key : (∃ pre s post, S = pre ++ s :: post ∧ (∀ t ∈ pre, ¬ inRange (toHashKey k) t) ∧
        inRange (toHashKey k) s ∧ determinShardIds (.ok S) k = .ok [s.ShardId]) ∨
      ((∀ t ∈ S, ¬ inRange (toHashKey k) t) ∧ determinShardIds (.ok S) k = .ok []) := by
    rcases first_split (toHashKey k) S with hnone | ⟨pre, s, post, he, hp, hs⟩
    · right
      exact ⟨hnone, by rw [hd, scanShards_none _ _ _ hnone]⟩
    · left
      refine ⟨pre, s, post, he, hp, hs, ?_⟩
      rw [hd, he, scanShards_first _ _ _ _ _ hp hs]
      rfl
  refine ⟨key, ?_⟩
  intro ids hids
  rcases key with ⟨_, s, _, _, _, _, h1⟩ | ⟨_, h1⟩
  · rw [h1] at hids
    cases hids
    simp
  · rw [h1] at hids
    cases hids
    simp

/-- A concrete case of C2: the key `a` and three overlapping shards, where
the first match wins. -/
theorem determinShardIds_first_match_witness :
    "a" ≠ "" ∧ determinShardIds (.ok overlapShards) "a" = .ok ["shardId-b"] ∧
    ∀ ids, determinShardIds (.ok overlapShards) "a" = .ok ids → ids.length ≤ 1 :=
  ⟨by decide, by rfl, (determinShardIds_first_match overlapShards "a" (by decide)).2⟩

/-- C3: for the empty partition key and any shard list of a successful
describe call, `determinShardIds` returns without error the IDs of all
shards, equal to the input position by position (same length, same order,
duplicates kept), whatever the ranges. -/
theorem determinShardIds_empty_key (S : List Shard) :
    determinShardIds (.ok S) "" = .ok (S.map (fun s => s.ShardId)) ∧
    (∀ ids, determinShardIds (.ok S) "" = .ok ids →
      ids.length = S.length ∧ ∀ i (hi : i < S.length), ids[i]? = some (S.get ⟨i, hi⟩).ShardId) := by
  have h : determinShardIds (.ok S) "" = .ok (S.map (fun s => s.ShardId)) := by
    simp [determinShardIds, allShardIds_eq]
  refine ⟨h, ?_⟩
  intro ids hids
  rw [h] at hids
  cases hids
  refine ⟨by simp, ?_⟩
  intro i hi
  simp [List.getElem?_map, List.getElem?_eq_getElem hi]

/-- C1: for a non-empty partition key `k` and a shard list whose ranges split
the key space `0 .. 2^128-1` (contiguous, not overlapping, covering it),
`determinShardIds` returns exactly one shard ID, that of the one shard of the
list whose range holds `toHashKey k`; `toHashKey k` is the 16-byte MD5 digest
of `k` read as an unsigned big-endian number, so `0 ≤ toHashKey k < 2^128`. -/
theorem determinShardIds_partition (S : List Shard) (k : String) (hk : k ≠ "")
    (hS : PartitionsKeySpace S) :
    (md5Sum (stringBytes k)).length = 16 ∧
    toHashKey k = bigSetBytes (md5Sum (stringBytes k)) ∧
    0 ≤ toHashKey k ∧ toHashKey k < 2 ^ 128 ∧
    ∃ s ∈ S, determinShardIds (.ok S) k = .ok [s.ShardId] ∧
      startKey s ≤ toHashKey k ∧ toHashKey k ≤ endKey s ∧
      ∀ t ∈ S, inRange (toHashKey k) t → t = s := by
  obtain ⟨h0, h1⟩ := toHashKey_bounds k
  refine ⟨md5Sum_length _, rfl, h0, h1, ?_⟩
  have hd : determinShardIds (.ok S) k = .ok (scanShards (toHashKey k) S []) := by
    simp [determinShardIds, hk]
  rcases first_split (toHashKey k) S with hnone | ⟨pre, s, post, he, hp, hs⟩
  · obtain ⟨s, hs, hin⟩ := hS.cover (toHashKey k) h0 h1
    exact absurd hin (hnone s hs)
  · refine ⟨s, by simp [he], ?_, hs.1, hs.2, ?_⟩
    · rw [hd, he, scanShards_first _ _ _ _ _ hp hs]
      rfl
    · intro t ht htin
      have hpw := hS.disjoint
      rw [he, List.pairwise_append] at hpw
      obtain ⟨_, hpost, hcross⟩ := hpw
      rw [he] at ht
      rcases List.mem_append.mp ht with ht | ht
      · exact absurd htin (hp t ht)
      · rcases List.mem_cons.mp ht with rfl | ht
        · rfl
        · exact absurd ⟨hs, htin⟩ ((List.pairwise_cons.mp hpost).1 t ht (toHashKey k))

/-- The two sample shards split the key space. -/
theorem twoShards_partition : PartitionsKeySpace twoShards := by
  have e1 : startKey ⟨"shardId-000000000000", ⟨"0", "170141183460469231731687303715884105727"⟩⟩ = 0 := by decide
  have e2 : endKey ⟨"shardId-000000000000", ⟨"0", "170141183460469231731687303715884105727"⟩⟩ = 170141183460469231731687303715884105727 := by decide
  have e3 : startKey ⟨"shardId-000000000001",
     ⟨"170141183460469231731687303715884105728", "340282366920938463463374607431768211455"⟩⟩ = 170141183460469231731687303715884105728 := by decide
  have e4 : endKey ⟨"shardId-000000000001",
     ⟨"170141183460469231731687303715884105728", "340282366920938463463374607431768211455"⟩⟩ = 340282366920938463463374607431768211455 := by decide
  refine ⟨by decide, ?_, ?_⟩
  · simp only [twoShards, List.pairwise_cons, List.mem_singleton, forall_eq, List.not_mem_nil,
      inRange, e1, e2, e3, e4]
    refine ⟨?_, by simp, by simp⟩
    intro h
    omega
  · intro h h0 h1
    by_cases hh : h ≤ 170141183460469231731687303715884105727
    · refine ⟨_, List.mem_cons_self _ _, ?_⟩
      simp only [inRange, e1, e2]
      omega
    · refine ⟨_, List.mem_cons_of_mem _ (List.mem_cons_self _ _), ?_⟩
      simp only [inRange, e3, e4]
      norm_num at h1
      omega

/-- A concrete case of C1: the key `a` and two shards that halve the key
space. -/
theorem determinShardIds_partition_witness :
    "a" ≠ "" ∧ PartitionsKeySpace twoShards ∧
    determinShardIds (.ok twoShards) "a" = .ok ["shardId-000000000000"] ∧
    toHashKey "a" = 0x0cc175b9c0f1b6a831c399e269772661 ∧
    ∃ s ∈ twoShards, determinShardIds (.ok twoShards) "a" = .ok [s.ShardId] ∧
      startKey s ≤ toHashKey "a" ∧ toHashKey "a" ≤ endKey s ∧
      ∀ t ∈ twoShards, inRange (toHashKey "a") t → t = s :=
  ⟨by decide, twoShards_partition, by rfl, by decide,
    (determinShardIds_partition twoShards "a" (by decide) twoShards_partition).2.2.2.2⟩

/-! ## Shard iterator -/

theorem sendAll_eq (rs : List SubRecord) (ch : List Bytes) :
    sendAll rs ch = ch ++ rs.map (fun r => r.Data) := by
  induction rs generalizing ch with
  | nil => simp [sendAll]
  | cons r rest ih => simp [sendAll, ih]

theorem isOver_no_end (p : IterateParams) (hE : p.EndTimestamp = 0) (hits : Nat) (t : Time)
    (empty : List Bool) : isOver p hits t empty = (false, hits) := by
  simp [isOver, timeIsZero, hE]

theorem isOver_record (p : IterateParams) (hE : p.EndTimestamp ≠ 0) (hits : Nat) (t : Time) :
    isOver p hits t [] = (decide (p.EndTimestamp < t), hits) := by
  simp [isOver, timeIsZero, timeBefore, hE]

theorem isOver_empty (p : IterateParams) (hE : p.EndTimestamp ≠ 0) (hits : Nat) (t : Time) :
    isOver p hits t [true] = (decide (maxEmptyIterates ≤ hits + 1), hits + 1) := by
  simp [isOver, timeIsZero, hE]

theorem isOver_record_snd (p : IterateParams) (hits : Nat) (t : Time) :
    (isOver p hits t []).2 = hits := by
  by_cases hE : p.EndTimestamp = 0
  · rw [isOver_no_end p hE]
  · rw [isOver_record p hE]

/-- One record that passes the check. -/
theorem iterateRecords_cons_pass (um : Unmarshal) (p : IterateParams) (record : Record)
    (rest : List Record) (st : IterState)
    (hpass : (isOver p st.emptyHits record.ApproximateArrivalTimestamp []).1 = false) :
    iterateRecords um p (record :: rest) st =
      iterateRecords um p rest { st with ch := st.ch ++ expand um record } := by
  have h2 := isOver_record_snd p st.emptyHits record.ApproximateArrivalTimestamp
  cases hu : um record.Data with
  | ok ar => simp [iterateRecords, hpass, h2, hu, expand, sendAll_eq]
  | error e => simp [iterateRecords, hpass, h2, hu, expand]

theorem iterateRecords_cons_over (um : Unmarshal) (p : IterateParams) (record : Record)
    (rest : List Record) (st : IterState)
    (hover : (isOver p st.emptyHits record.ApproximateArrivalTimestamp []).1 = true) :
    iterateRecords um p (record :: rest) st = (true, st) := by
  have h2 := isOver_record_snd p st.emptyHits record.ApproximateArrivalTimestamp
  simp [iterateRecords, hover, h2]

/-- A run of records none of which is over. -/
theorem iterateRecords_all_pass (um : Unmarshal) (p : IterateParams) (rs : List Record)
    (st : IterState)
    (hpass : ∀ r ∈ rs, (isOver p st.emptyHits r.ApproximateArrivalTimestamp []).1 = false) :
    iterateRecords um p rs st = (false, { st with ch := st.ch ++ rs.flatMap (expand um) }) := by
  induction rs generalizing st with
  | nil => simp [iterateRecords]
  | cons r rest ih =>
    rw [iterateRecords_cons_pass um p r rest st (hpass r (by simp))]
    have h := ih { st with ch := st.ch ++ expand um r } (fun x hx => hpass x (by simp [hx]))
    rw [h]
    simp [List.flatMap_cons, List.append_assoc]

/-- Records up to the first one that is over. -/
theorem iterateRecords_stop (um : Unmarshal) (p : IterateParams) (before : List Record)
    (r : Record) (after : List Record) (st : IterState)
    (hpass : ∀ x ∈ before, (isOver p st.emptyHits x.ApproximateArrivalTimestamp []).1 = false)
    (hover : (isOver p st.emptyHits r.ApproximateArrivalTimestamp []).1 = true) :
    iterateRecords um p (before ++ r :: after) st =
      (true, { st with ch := st.ch ++ before.flatMap (expand um) }) := by
  induction before generalizing st with
  | nil => simpa using iterateRecords_cons_over um p r after st hover
  | cons x rest ih =>
    rw [List.cons_append, iterateRecords_cons_pass um p x _ st (hpass x (by simp))]
    have h := ih { st with ch := st.ch ++ expand um x } (fun y hy => hpass y (by simp [hy])) hover
    rw [h]
    simp [List.flatMap_cons, List.append_assoc]

/-- Running the loop on `xs ++ ys` is running it on `xs` and, if it has not
returned, going on with `ys`. -/
theorem iterateLoop_append (um : Unmarshal) (p : IterateParams) (xs ys : List Poll)
    (st : IterState) :
    iterateLoop um p (xs ++ ys) st =
      match iterateLoop um p xs st with
      | (.running, st1) => iterateLoop um p ys st1
      | r => r := by
  induction xs generalizing st with
  | nil => simp [iterateLoop]
  | cons x rest ih =>
    simp only [List.cons_append, iterateLoop]
    cases hx : x.getRecords with
    | error e => simp
    | ok rr =>
      simp only
      rcases hr : iterateRecords um p rr.Records { st with itr := rr.NextShardIterator }
        with ⟨flag, st1⟩
      cases flag with
      | true => simp
      | false =>
        simp only
        by_cases hlen : rr.Records.length = 0
        · simp only [hlen, if_true]
          cases ho : (isOver p st1.emptyHits x.now [true]).1 with
          | true => simp
          | false => simp [ih]
        · simp only [hlen, if_false]
          exact ih st1

theorem iterateRecords_emptyHits (um : Unmarshal) (p : IterateParams) (rs : List Record)
    (st : IterState) :
    (iterateRecords um p rs st).2.emptyHits = st.emptyHits ∧
    (iterateRecords um p rs st).2.itr = st.itr := by
  induction rs generalizing st with
  | nil => simp [iterateRecords]
  | cons r rest ih =>
    cases ho : (isOver p st.emptyHits r.ApproximateArrivalTimestamp []).1 with
    | true => rw [iterateRecords_cons_over um p r rest st ho]; simp
    | false =>
      rw [iterateRecords_cons_pass um p r rest st ho]
      exact ih { st with ch := st.ch ++ expand um r }

/-- A reply whose records all pass the check. -/
theorem iterateLoop_cons_pass (um : Unmarshal) (p : IterateParams) (x : Poll)
    (rest : List Poll) (st : IterState) (rr : GetRecordsOutput)
    (hx : x.getRecords = .ok rr) (hne : rr.Records.length ≠ 0)
    (hpass : ∀ r ∈ rr.Records, (isOver p st.emptyHits r.ApproximateArrivalTimestamp []).1 = false) :
    iterateLoop um p (x :: rest) st =
      iterateLoop um p rest
        ⟨rr.NextShardIterator, st.emptyHits, st.ch ++ rr.Records.flatMap (expand um)⟩ := by
  have h := iterateRecords_all_pass um p rr.Records { st with itr := rr.NextShardIterator } hpass
  simp only [iterateLoop, hx, h, hne, if_false]

/-- A reply with zero records. -/
theorem iterateLoop_cons_empty (um : Unmarshal) (p : IterateParams) (x : Poll)
    (rest : List Poll) (st : IterState) (rr : GetRecordsOutput)
    (hx : x.getRecords = .ok rr) (hlen : rr.Records.length = 0) :
    iterateLoop um p (x :: rest) st =
      if (isOver p st.emptyHits x.now [true]).1 then
        (.returned none, ⟨rr.NextShardIterator, (isOver p st.emptyHits x.now [true]).2, st.ch⟩)
      else
        iterateLoop um p rest
          ⟨rr.NextShardIterator, (isOver p st.emptyHits x.now [true]).2, st.ch⟩ := by
  have hnil : rr.Records = [] := List.length_eq_zero.mp hlen
  simp only [iterateLoop, hx, hnil, iterateRecords, List.length_nil, if_true]

/-- A reply holding a record that is over. -/
theorem iterateLoop_cons_stop (um : Unmarshal) (p : IterateParams) (x : Poll)
    (rest : List Poll) (st : IterState) (rr : GetRecordsOutput) (before : List Record)
    (r : Record) (after : List Record)
    (hx : x.getRecords = .ok rr) (hrs : rr.Records = before ++ r :: after)
    (hpass : ∀ y ∈ before, (isOver p st.emptyHits y.ApproximateArrivalTimestamp []).1 = false)
    (hover : (isOver p st.emptyHits r.ApproximateArrivalTimestamp []).1 = true) :
    iterateLoop um p (x :: rest) st =
      (.returned none,
        ⟨rr.NextShardIterator, st.emptyHits, st.ch ++ before.flatMap (expand um)⟩) := by
  have h := iterateRecords_stop um p before r after { st with itr := rr.NextShardIterator }
    hpass hover
  simp only [iterateLoop, hx, hrs, h]

theorem pollRecords_append (xs ys : List Poll) :
    pollRecords (xs ++ ys) = pollRecords xs ++ pollRecords ys := by
  induction xs with
  | nil => simp [pollRecords]
  | cons x rest ih =>
    cases hx : x.getRecords with
    | error e => simp [pollRecords, hx, ih]
    | ok rr => simp [pollRecords, hx, ih]

/-- Without an end timestamp the loop consumes every successful reply. -/
theorem iterateLoop_no_end (um : Unmarshal) (p : IterateParams) (hE : p.EndTimestamp = 0)
    (polls : List Poll) (st : IterState) (hok : ∀ poll ∈ polls, poll.succeeded = true) :
    ∃ itr, iterateLoop um p polls st =
      (.running, ⟨itr, st.emptyHits, st.ch ++ (pollRecords polls).flatMap (expand um)⟩) := by
  induction polls generalizing st with
  | nil => exact ⟨st.itr, by simp [iterateLoop, pollRecords]⟩
  | cons x rest ih =>
    have hx := hok x (by simp)
    have hrest : ∀ poll ∈ rest, poll.succeeded = true := fun q hq => hok q (by simp [hq])
    cases hg : x.getRecords with
    | error e => simp [Poll.succeeded, hg] at hx
    | ok rr =>
      by_cases hlen : rr.Records.length = 0
      · rw [iterateLoop_cons_empty um p x rest st rr hg hlen]
        simp only [isOver_no_end p hE, Bool.false_eq_true, if_false]
        obtain ⟨itr, h⟩ := ih ⟨rr.NextShardIterator, st.emptyHits, st.ch⟩ hrest
        refine ⟨itr, ?_⟩
        rw [h]
        simp [pollRecords, hg, List.length_eq_zero.mp hlen]
      · rw [iterateLoop_cons_pass um p x rest st rr hg hlen
          (fun r _ => by rw [isOver_no_end p hE])]
        obtain ⟨itr, h⟩ := ih
          ⟨rr.NextShardIterator, st.emptyHits, st.ch ++ rr.Records.flatMap (expand um)⟩ hrest
        refine ⟨itr, ?_⟩
        rw [h]
        simp [pollRecords, hg, List.append_assoc]

/-- With an end timestamp, replies whose records are all at or before it and
fewer than 100 empty replies in total are consumed whole. -/
theorem iterateLoop_all_pass (um : Unmarshal) (p : IterateParams) (hE : p.EndTimestamp ≠ 0)
    (polls : List Poll) (st : IterState) (hok : ∀ poll ∈ polls, poll.succeeded = true)
    (hpass : ∀ r ∈ pollRecords polls, ¬ p.EndTimestamp < r.ApproximateArrivalTimestamp)
    (hcount : st.emptyHits + countEmpty polls < maxEmptyIterates) :
    ∃ itr, iterateLoop um p polls st =
      (.running, ⟨itr, st.emptyHits + countEmpty polls,
        st.ch ++ (pollRecords polls).flatMap (expand um)⟩) := by
  induction polls generalizing st with
  | nil => exact ⟨st.itr, by simp [iterateLoop, pollRecords, countEmpty]⟩
  | cons x rest ih =>
    have hx := hok x (by simp)
    have hrest : ∀ poll ∈ rest, poll.succeeded = true := fun q hq => hok q (by simp [hq])
    cases hg : x.getRecords with
    | error e => simp [Poll.succeeded, hg] at hx
    | ok rr =>
      have hpr : pollRecords (x :: rest) = rr.Records ++ pollRecords rest := by
        simp [pollRecords, hg]
      rw [hpr] at hpass
      by_cases hlen : rr.Records.length = 0
      · have hemp : x.isEmpty = true := by simp [Poll.isEmpty, hg, hlen]
        have hc : countEmpty (x :: rest) = countEmpty rest + 1 := by
          simp [countEmpty, List.countP_cons, hemp]
        rw [hc] at hcount
        rw [iterateLoop_cons_empty um p x rest st rr hg hlen, isOver_empty p hE]
        have hnot : ¬ maxEmptyIterates ≤ st.emptyHits + 1 := by omega
        simp only [hnot, decide_False, Bool.false_eq_true, if_false]
        obtain ⟨itr, h⟩ := ih ⟨rr.NextShardIterator, st.emptyHits + 1, st.ch⟩ hrest
          (fun r hr => hpass r (by simp [hr])) (by simp only; omega)
        refine ⟨itr, ?_⟩
        rw [h, hc, hpr]
        simp [List.length_eq_zero.mp hlen]
        omega
      · have hemp : x.isEmpty = false := by simp [Poll.isEmpty, hg, hlen]
        have hc : countEmpty (x :: rest) = countEmpty rest := by
          simp [countEmpty, List.countP_cons, hemp]
        rw [hc] at hcount
        rw [iterateLoop_cons_pass um p x rest st rr hg hlen
          (fun r hr => by
            rw [isOver_record p hE]
            simpa using hpass r (by simp [hr]))]
        obtain ⟨itr, h⟩ := ih
          ⟨rr.NextShardIterator, st.emptyHits, st.ch ++ rr.Records.flatMap (expand um)⟩ hrest
          (fun r hr => hpass r (by simp [hr])) hcount
        refine ⟨itr, ?_⟩
        rw [h, hc, hpr]
        simp [List.append_assoc]

theorem iterate_eq (um : Unmarshal) (app : App)
    (gsi : GetShardIteratorInput → Except Error (Option String)) (p : IterateParams)
    (itr0 : Option String) (hgsi : gsi (shardIteratorInput app p) = .ok itr0)
    (polls : List Poll) :
    iterate um app gsi p polls = iterateLoop um p polls ⟨itr0, 0, []⟩ := by
  simp [iterate, hgsi]

theorem pollRecords_empties (es : List Poll) (hes : ∀ e ∈ es, e.isEmpty = true) :
    pollRecords es = [] ∧ countEmpty es = es.length ∧ ∀ e ∈ es, e.succeeded = true := by
  induction es with
  | nil => simp [pollRecords, countEmpty]
  | cons x rest ih =>
    have hx := hes x (by simp)
    obtain ⟨h1, h2, h3⟩ := ih (fun e he => hes e (by simp [he]))
    cases hg : x.getRecords with
    | error e => simp [Poll.isEmpty, hg] at hx
    | ok rr =>
      have hlen : rr.Records = [] := by
        simp only [Poll.isEmpty, hg, decide_eq_true_eq] at hx
        exact List.length_eq_zero.mp hx
      refine ⟨by simp [pollRecords, hg, hlen, h1], ?_, ?_⟩
      · simp only [countEmpty] at h2 ⊢
        simp [List.countP_cons, hes x (by simp), h2]
      · intro e he
        rcases List.mem_cons.mp he with rfl | he
        · simp [Poll.succeeded, hg]
        · exact h3 e he

/-- Replies whose records are all after the end timestamp: nothing is sent
and no error is returned. -/
theorem iterateLoop_all_late (um : Unmarshal) (p : IterateParams) (hE : p.EndTimestamp ≠ 0)
    (polls : List Poll) (st : IterState) (hok : ∀ poll ∈ polls, poll.succeeded = true)
    (hlate : ∀ r ∈ pollRecords polls, p.EndTimestamp < r.ApproximateArrivalTimestamp) :
    (iterateLoop um p polls st).2.ch = st.ch ∧
    ((iterateLoop um p polls st).1 = .running ∨
      (iterateLoop um p polls st).1 = .returned none) := by
  induction polls generalizing st with
  | nil => simp [iterateLoop]
  | cons x rest ih =>
    have hx := hok x (by simp)
    have hrest : ∀ poll ∈ rest, poll.succeeded = true := fun q hq => hok q (by simp [hq])
    cases hg : x.getRecords with
    | error e => simp [Poll.succeeded, hg] at hx
    | ok rr =>
      have hpr : pollRecords (x :: rest) = rr.Records ++ pollRecords rest := by
        simp [pollRecords, hg]
      rw [hpr] at hlate
      cases hrs : rr.Records with
      | nil =>
        rw [iterateLoop_cons_empty um p x rest st rr hg (by simp [hrs])]
        split
        · simp
        · exact ih _ hrest (fun r hr => hlate r (by simp [hr]))
      | cons r rs =>
        rw [iterateLoop_cons_stop um p x rest st rr [] r rs hg (by simp [hrs]) (by simp)
          (by rw [isOver_record p hE]; simpa using hlate r (by simp [hrs]))]
        simp

/-- Replies whose records are all after the end timestamp: the loop has
returned once the counter and the replies together reach the threshold. -/
theorem iterateLoop_late_returns (um : Unmarshal) (p : IterateParams)
    (hE : p.EndTimestamp ≠ 0) (polls : List Poll) (st : IterState)
    (hok : ∀ poll ∈ polls, poll.succeeded = true)
    (hlate : ∀ r ∈ pollRecords polls, p.EndTimestamp < r.ApproximateArrivalTimestamp)
    (hst : st.emptyHits < maxEmptyIterates)
    (hlen : maxEmptyIterates ≤ st.emptyHits + polls.length) :
    (iterateLoop um p polls st).1 = .returned none := by
  induction polls generalizing st with
  | nil => simp at hlen; omega
  | cons x rest ih =>
    have hx := hok x (by simp)
    have hrest : ∀ poll ∈ rest, poll.succeeded = true := fun q hq => hok q (by simp [hq])
    cases hg : x.getRecords with
    | error e => simp [Poll.succeeded, hg] at hx
    | ok rr =>
      have hpr : pollRecords (x :: rest) = rr.Records ++ pollRecords rest := by
        simp [pollRecords, hg]
      rw [hpr] at hlate
      cases hrs : rr.Records with
      | nil =>
        rw [iterateLoop_cons_empty um p x rest st rr hg (by simp [hrs]), isOver_empty p hE]
        by_cases hfull : maxEmptyIterates ≤ st.emptyHits + 1
        · simp [hfull]
        · simp only [hfull, decide_False, Bool.false_eq_true, if_false]
          apply ih _ hrest (fun r hr => hlate r (by simp [hr]))
          · simp only; omega
          · simp only [List.length_cons] at hlen ⊢; omega
      | cons r rs =>
        rw [iterateLoop_cons_stop um p x rest st rr [] r rs hg (by simp [hrs]) (by simp)
          (by rw [isOver_record p hE]; simpa using hlate r (by simp [hrs]))]

/-- C6: with an end timestamp set and error-free replies whose records all
arrive strictly after it, `iterate` sends nothing and never returns an
error; it has returned `nil` once 100 replies are consumed, and it returns
exactly at the first non-empty batch, or at the 100th empty reply when no
batch comes before it: on the replies before that one it is still running. -/
theorem iterate_end_before_all (um : Unmarshal) (app : App)
    (gsi : GetShardIteratorInput → Except Error (Option String)) (p : IterateParams)
    (itr0 : Option String) (polls : List Poll)
    (hE : p.EndTimestamp ≠ 0) (hgsi : gsi (shardIteratorInput app p) = .ok itr0)
    (hok : ∀ poll ∈ polls, poll.succeeded = true)
    (hlate : ∀ r ∈ pollRecords polls, p.EndTimestamp < r.ApproximateArrivalTimestamp) :
    (iterate um app gsi p polls).2.ch = [] ∧
    ((iterate um app gsi p polls).1 = .running ∨
      (iterate um app gsi p polls).1 = .returned none) ∧
    (maxEmptyIterates ≤ polls.length → (iterate um app gsi p polls).1 = .returned none) ∧
    (∀ front x rest, polls = front ++ x :: rest → (∀ e ∈ front, e.isEmpty = true) →
      ((x.isEmpty = false ∧ front.length < maxEmptyIterates) ∨
        (x.isEmpty = true ∧ front.length + 1 = maxEmptyIterates)) →
      (iterate um app gsi p front).1 = .running ∧
      (iterate um app gsi p (front ++ [x])).1 = .returned none ∧
      (iterate um app gsi p polls).1 = .returned none) := by
  simp only [iterate_eq um app gsi p itr0 hgsi]
  obtain ⟨h1, h2⟩ := iterateLoop_all_late um p hE polls ⟨itr0, 0, []⟩ hok hlate
  refine ⟨h1, h2, ?_, ?_⟩
  · intro hlen
    exact iterateLoop_late_returns um p hE polls _ hok hlate (by simp [maxEmptyIterates])
      (by simpa using hlen)
  · intro front x rest hsplit hfront hx
    obtain ⟨hr, hc, hs⟩ := pollRecords_empties front hfront
    have hflen : front.length < maxEmptyIterates := by
      rcases hx with ⟨_, h⟩ | ⟨_, h⟩
      · exact h
      · omega
    obtain ⟨itr1, hrun⟩ := iterateLoop_all_pass um p hE front ⟨itr0, 0, []⟩ hs
      (by simp [hr]) (by simpa [hc] using hflen)
    have hxok : x.succeeded = true := hok x (by simp [hsplit])
    have hstep : ∀ tail, (iterateLoop um p (front ++ x :: tail) ⟨itr0, 0, []⟩).1
        = .returned none := by
      intro tail
      rw [iterateLoop_append, hrun]
      simp only
      cases hg : x.getRecords with
      | error e => simp [Poll.succeeded, hg] at hxok
      | ok rr =>
        rcases hx with ⟨hxe, _⟩ | ⟨hxe, hn⟩
        · cases hrs : rr.Records with
          | nil => simp [Poll.isEmpty, hg, hrs] at hxe
          | cons r rs =>
            have hmem : r ∈ pollRecords polls := by
              rw [hsplit, pollRecords_append]
              simp [pollRecords, hg, hrs]
            rw [iterateLoop_cons_stop um p x tail _ rr [] r rs hg (by simp [hrs]) (by simp)
              (by rw [isOver_record p hE]; simpa using hlate r hmem)]
        · have hlen : rr.Records.length = 0 := by
            simpa [Poll.isEmpty, hg] using hxe
          rw [iterateLoop_cons_empty um p x tail _ rr hg hlen, isOver_empty p hE]
          have hfull : maxEmptyIterates ≤ countEmpty front + 1 := by omega
          simp [hfull]
    refine ⟨by rw [hrun], hstep [], ?_⟩
    rw [hsplit]
    exact hstep rest

theorem isOver_empty_clock (p : IterateParams) (hits : Nat) (t u : Time) :
    isOver p hits t [true] = isOver p hits u [true] := by
  by_cases hE : p.EndTimestamp = 0
  · rw [isOver_no_end p hE, isOver_no_end p hE]
  · rw [isOver_empty p hE, isOver_empty p hE]

/-- The loop never looks at the clock reading. -/
theorem iterateLoop_clock (um : Unmarshal) (p : IterateParams) (clock : Poll → Time)
    (polls : List Poll) (st : IterState) :
    iterateLoop um p (polls.map (fun q => ⟨q.getRecords, clock q⟩)) st =
      iterateLoop um p polls st := by
  induction polls generalizing st with
  | nil => simp [iterateLoop]
  | cons x rest ih =>
    simp only [List.map_cons, iterateLoop]
    cases hx : x.getRecords with
    | error e => simp
    | ok rr =>
      simp only
      rcases hr : iterateRecords um p rr.Records { st with itr := rr.NextShardIterator }
        with ⟨flag, st1⟩
      cases flag with
      | true => simp
      | false =>
        simp only [isOver_empty_clock p st1.emptyHits (clock x) x.now, ih]

/-- While the loop is running the counter is the number of empty replies, and
below the threshold. -/
theorem iterateLoop_running_count (um : Unmarshal) (p : IterateParams)
    (hE : p.EndTimestamp ≠ 0) (polls : List Poll) (st st1 : IterState)
    (hst : st.emptyHits < maxEmptyIterates)
    (hrun : iterateLoop um p polls st = (.running, st1)) :
    st1.emptyHits = st.emptyHits + countEmpty polls ∧ st1.emptyHits < maxEmptyIterates := by
  induction polls generalizing st with
  | nil =>
    simp only [iterateLoop, Prod.mk.injEq, true_and] at hrun
    subst hrun
    simp [countEmpty, hst]
  | cons x rest ih =>
    cases hg : x.getRecords with
    | error e => simp [iterateLoop, hg] at hrun
    | ok rr =>
      simp only [iterateLoop, hg] at hrun
      have hkeep := (iterateRecords_emptyHits um p rr.Records
        { st with itr := rr.NextShardIterator }).1
      rcases hr : iterateRecords um p rr.Records { st with itr := rr.NextShardIterator }
        with ⟨flag, st2⟩
      rw [hr] at hrun hkeep
      simp only at hkeep
      cases flag with
      | true => simp at hrun
      | false =>
        simp only at hrun
        by_cases hlen : rr.Records.length = 0
        · have hemp : x.isEmpty = true := by simp [Poll.isEmpty, hg, hlen]
          have hc : countEmpty (x :: rest) = countEmpty rest + 1 := by
            simp [countEmpty, List.countP_cons, hemp]
          simp only [hlen, if_true, isOver_empty p hE] at hrun
          by_cases hfull : maxEmptyIterates ≤ st2.emptyHits + 1
          · simp [hfull] at hrun
          · simp only [hfull, decide_False, Bool.false_eq_true, if_false] at hrun
            obtain ⟨h1, h2⟩ := ih _ (by simp only; omega) hrun
            simp only at h1
            exact ⟨by rw [h1, hc, hkeep]; omega, h2⟩
        · have hemp : x.isEmpty = false := by simp [Poll.isEmpty, hg, hlen]
          have hc : countEmpty (x :: rest) = countEmpty rest := by
            simp [countEmpty, List.countP_cons, hemp]
          simp only [hlen, if_false] at hrun
          obtain ⟨h1, h2⟩ := ih _ (by rw [hkeep]; exact hst) hrun
          exact ⟨by rw [h1, hc, hkeep], h2⟩

/-- A reply that is not empty leaves the counter as it is. -/
theorem iterateLoop_single_nonempty (um : Unmarshal) (p : IterateParams) (x : Poll)
    (st : IterState) (hx : x.isEmpty = false) :
    (iterateLoop um p [x] st).2.emptyHits = st.emptyHits := by
  cases hg : x.getRecords with
  | error e => simp [iterateLoop, hg]
  | ok rr =>
    have hlen : ¬ rr.Records.length = 0 := by simpa [Poll.isEmpty, hg] using hx
    have hkeep := (iterateRecords_emptyHits um p rr.Records
      { st with itr := rr.NextShardIterator }).1
    simp only [iterateLoop, hg]
    rcases hr : iterateRecords um p rr.Records { st with itr := rr.NextShardIterator }
      with ⟨flag, st2⟩
    rw [hr] at hkeep
    cases flag with
    | true => simpa using hkeep
    | false => simpa [hlen] using hkeep

/-- C7: with an end timestamp set, an empty reply adds one to the counter
and `iterate` returns `nil` exactly when the counter has then reached
`maxEmptyIterates = 100`; the decision uses neither the clock reading nor
the value of the end timestamp.  The counter starts at 0, counts the empty
replies only and is never reset by a batch in between, so `iterate` returns
at the 100th empty reply, consecutive or not, and on no earlier one. -/
theorem iterate_empty_counter (um : Unmarshal) (app : App)
    (gsi : GetShardIteratorInput → Except Error (Option String)) (p : IterateParams)
    (itr0 : Option String)
    (hE : p.EndTimestamp ≠ 0) (hgsi : gsi (shardIteratorInput app p) = .ok itr0) :
    maxEmptyIterates = 100 ∧
    (∀ hits t, isOver p hits t [true] = (decide (maxEmptyIterates ≤ hits + 1), hits + 1)) ∧
    (∀ q : IterateParams, q.EndTimestamp ≠ 0 → ∀ hits t u,
      isOver q hits u [true] = isOver p hits t [true]) ∧
    (∀ polls (clock : Poll → Time),
      iterate um app gsi p (polls.map (fun q => ⟨q.getRecords, clock q⟩)) =
        iterate um app gsi p polls) ∧
    (∀ pre, (iterate um app gsi p pre).1 = .running →
      (iterate um app gsi p pre).2.emptyHits = countEmpty pre ∧
      countEmpty pre < maxEmptyIterates ∧
      ∀ x : Poll,
        (x.isEmpty = true →
          (iterate um app gsi p (pre ++ [x])).2.emptyHits = countEmpty pre + 1 ∧
          ((iterate um app gsi p (pre ++ [x])).1 = .returned none ↔
            countEmpty pre + 1 = maxEmptyIterates) ∧
          ((iterate um app gsi p (pre ++ [x])).1 = .running ↔
            countEmpty pre + 1 < maxEmptyIterates)) ∧
        (x.isEmpty = false →
          (iterate um app gsi p (pre ++ [x])).2.emptyHits = countEmpty pre)) := by
  refine ⟨rfl, fun hits t => isOver_empty p hE hits t, ?_, ?_, ?_⟩
  · intro q hq hits t u
    rw [isOver_empty p hE, isOver_empty q hq]
  · intro polls clock
    rw [iterate_eq um app gsi p itr0 hgsi, iterate_eq um app gsi p itr0 hgsi]
    exact iterateLoop_clock um p clock polls _
  · intro pre hrun
    simp only [iterate_eq um app gsi p itr0 hgsi] at hrun ⊢
    rcases hpre : iterateLoop um p pre ⟨itr0, 0, []⟩ with ⟨status, st1⟩
    rw [hpre] at hrun
    simp only at hrun
    subst hrun
    obtain ⟨h1, h2⟩ := iterateLoop_running_count um p hE pre ⟨itr0, 0, []⟩ st1
      (by simp [maxEmptyIterates]) hpre
    simp only [Nat.zero_add] at h1
    refine ⟨h1, by rw [← h1]; exact h2, ?_⟩
    intro x
    rw [iterateLoop_append, hpre]
    simp only
    constructor
    · intro hx
      cases hg : x.getRecords with
      | error e => simp [Poll.isEmpty, hg] at hx
      | ok rr =>
        have hlen : rr.Records.length = 0 := by simpa [Poll.isEmpty, hg] using hx
        rw [iterateLoop_cons_empty um p x [] st1 rr hg hlen, isOver_empty p hE, h1]
        by_cases hfull : maxEmptyIterates ≤ countEmpty pre + 1
        · have : countEmpty pre + 1 = maxEmptyIterates := by omega
          simp [hfull, this]
        · have h3 : countEmpty pre + 1 ≠ maxEmptyIterates := by omega
          have h4 : countEmpty pre + 1 < maxEmptyIterates := by omega
          simp [hfull, h3, h4, iterateLoop]
    · intro hx
      rw [iterateLoop_single_nonempty um p x st1 hx, h1]

/-- The record loop only appends to the channel. -/
theorem iterateRecords_ch_ext (um : Unmarshal) (p : IterateParams) (rs : List Record)
    (st : IterState) : ∃ tail, (iterateRecords um p rs st).2.ch = st.ch ++ tail := by
  induction rs generalizing st with
  | nil => exact ⟨[], by simp [iterateRecords]⟩
  | cons r rest ih =>
    cases ho : (isOver p st.emptyHits r.ApproximateArrivalTimestamp []).1 with
    | true =>
      rw [iterateRecords_cons_over um p r rest st ho]
      exact ⟨[], by simp⟩
    | false =>
      rw [iterateRecords_cons_pass um p r rest st ho]
      obtain ⟨tail, h⟩ := ih { st with ch := st.ch ++ expand um r }
      exact ⟨expand um r ++ tail, by rw [h]; simp [List.append_assoc]⟩

/-- The polling loop only appends to the channel. -/
theorem iterateLoop_ch_ext (um : Unmarshal) (p : IterateParams) (polls : List Poll)
    (st : IterState) : ∃ tail, (iterateLoop um p polls st).2.ch = st.ch ++ tail := by
  induction polls generalizing st with
  | nil => exact ⟨[], by simp [iterateLoop]⟩
  | cons x rest ih =>
    cases hg : x.getRecords with
    | error e => exact ⟨[], by simp [iterateLoop, hg]⟩
    | ok rr =>
      obtain ⟨t1, h1⟩ := iterateRecords_ch_ext um p rr.Records
        { st with itr := rr.NextShardIterator }
      simp only [iterateLoop, hg]
      rcases hr : iterateRecords um p rr.Records { st with itr := rr.NextShardIterator }
        with ⟨flag, st2⟩
      rw [hr] at h1
      simp only at h1
      cases flag with
      | true => exact ⟨t1, by simpa using h1⟩
      | false =>
        simp only
        by_cases hlen : rr.Records.length = 0
        · simp only [hlen, if_true]
          cases ho : (isOver p st2.emptyHits x.now [true]).1 with
          | true => exact ⟨t1, by simpa using h1⟩
          | false =>
            obtain ⟨t2, h2⟩ := ih { st2 with emptyHits := (isOver p st2.emptyHits x.now [true]).2 }
            refine ⟨t1 ++ t2, ?_⟩
            simp only [Bool.false_eq_true, if_false]
            rw [h2]
            simp only [h1, List.append_assoc]
        · simp only [hlen, if_false]
          obtain ⟨t2, h2⟩ := ih st2
          exact ⟨t1 ++ t2, by rw [h2, h1, List.append_assoc]⟩

/-- Records that pass the check are sent, then the loop goes on with the rest
of the batch. -/
theorem iterateRecords_append_pass (um : Unmarshal) (p : IterateParams) (xs ys : List Record)
    (st : IterState)
    (hpass : ∀ r ∈ xs, (isOver p st.emptyHits r.ApproximateArrivalTimestamp []).1 = false) :
    iterateRecords um p (xs ++ ys) st =
      iterateRecords um p ys { st with ch := st.ch ++ xs.flatMap (expand um) } := by
  induction xs generalizing st with
  | nil => simp
  | cons x rest ih =>
    rw [List.cons_append, iterateRecords_cons_pass um p x _ st (hpass x (by simp))]
    have h := ih { st with ch := st.ch ++ expand um x } (fun y hy => hpass y (by simp [hy]))
    rw [h]
    simp [List.flatMap_cons, List.append_assoc]

/-- What the loop sends for a record it reaches and that passes the check,
in terms of `expand`. -/
theorem iterate_record_sent (um : Unmarshal) (app : App)
    (gsi : GetShardIteratorInput → Except Error (Option String)) (p : IterateParams)
    (pre : List Poll) (before : List Record) (record : Record) (next : Option String)
    (now : Time)
    (hrun : (iterate um app gsi p pre).1 = .running)
    (hbefore : ∀ x ∈ before,
      (isOver p (iterate um app gsi p pre).2.emptyHits x.ApproximateArrivalTimestamp []).1
        = false)
    (hpass :
      (isOver p (iterate um app gsi p pre).2.emptyHits record.ApproximateArrivalTimestamp []).1
        = false) :
    iterate um app gsi p (pre ++ [⟨.ok ⟨before ++ [record], next⟩, now⟩]) =
      (.running, ⟨next, (iterate um app gsi p pre).2.emptyHits,
        (iterate um app gsi p pre).2.ch ++ before.flatMap (expand um) ++ expand um record⟩) ∧
    ∀ (after : List Record) (rest : List Poll), ∃ tail,
      (iterate um app gsi p (pre ++ ⟨.ok ⟨before ++ record :: after, next⟩, now⟩ :: rest)).2.ch =
        (iterate um app gsi p pre).2.ch ++ before.flatMap (expand um) ++ expand um record
          ++ tail := by
  cases hg : gsi (shardIteratorInput app p) with
  | error e => simp [iterate, hg] at hrun
  | ok itr0 =>
    simp only [iterate_eq um app gsi p itr0 hg] at hrun hbefore hpass ⊢
    rcases hpre : iterateLoop um p pre ⟨itr0, 0, []⟩ with ⟨status, st1⟩
    rw [hpre] at hrun hbefore hpass
    simp only at hrun hbefore hpass
    subst hrun
    have hall : ∀ r ∈ before ++ [record],
        (isOver p st1.emptyHits r.ApproximateArrivalTimestamp []).1 = false := by
      intro r hr
      rcases List.mem_append.mp hr with hr | hr
      · exact hbefore r hr
      · rw [List.mem_singleton.mp hr]; exact hpass
    constructor
    · rw [iterateLoop_append, hpre]
      simp only
      rw [iterateLoop_cons_pass um p _ [] st1 ⟨before ++ [record], next⟩ rfl (by simp) hall]
      simp [iterateLoop, List.append_assoc]
    · intro after rest
      rw [iterateLoop_append, hpre]
      simp only
      have hsplit : before ++ record :: after = (before ++ [record]) ++ after := by simp
      have hrec := iterateRecords_append_pass um p (before ++ [record]) after
        { st1 with itr := next } hall
      obtain ⟨t1, h1⟩ := iterateRecords_ch_ext um p after
        { itr := next, emptyHits := st1.emptyHits,
          ch := st1.ch ++ (before ++ [record]).flatMap (expand um) }
      simp only [iterateLoop, hsplit, hrec]
      rcases hr : iterateRecords um p after
        { itr := next, emptyHits := st1.emptyHits,
          ch := st1.ch ++ (before ++ [record]).flatMap (expand um) } with ⟨flag, st2⟩
      rw [hr] at h1
      simp only at h1
      have hch : st2.ch = st1.ch ++ before.flatMap (expand um) ++ expand um record ++ t1 := by
        rw [h1]; simp [List.append_assoc]
      cases flag with
      | true => exact ⟨t1, by simpa using hch⟩
      | false =>
        simp only
        split
        · split
          · exact ⟨t1, by simpa using hch⟩
          · obtain ⟨t2, h2⟩ := iterateLoop_ch_ext um p rest
              { st2 with emptyHits :=
                (isOver p st2.emptyHits now [true]).2 }
            exact ⟨t1 ++ t2, by rw [h2]; simp only [hch, List.append_assoc]⟩
        · obtain ⟨t2, h2⟩ := iterateLoop_ch_ext um p rest st2
          exact ⟨t1 ++ t2, by rw [h2, hch]; simp only [List.append_assoc]⟩

/-- C4: for a raw record that `iterate` reaches and that passes the
termination check, when the aggregate decoder succeeds with `n` sub-records
`iterate` sends exactly those `n` payloads, in container order, right after
the payloads of the earlier records, and not the raw payload; when the
decoder fails it sends exactly one payload, the raw data unchanged.  The
same payloads stand at that place in the channel whatever follows the record
in its batch and in later replies. -/
theorem iterate_expands_record (um : Unmarshal) (app : App)
    (gsi : GetShardIteratorInput → Except Error (Option String)) (p : IterateParams)
    (pre : List Poll) (before : List Record) (record : Record) (next : Option String)
    (now : Time)
    (hrun : (iterate um app gsi p pre).1 = .running)
    (hbefore : ∀ x ∈ before,
      (isOver p (iterate um app gsi p pre).2.emptyHits x.ApproximateArrivalTimestamp []).1
        = false)
    (hpass :
      (isOver p (iterate um app gsi p pre).2.emptyHits record.ApproximateArrivalTimestamp []).1
        = false) :
    (∀ ar, um record.Data = .ok ar →
      iterate um app gsi p (pre ++ [⟨.ok ⟨before ++ [record], next⟩, now⟩]) =
        (.running, ⟨next, (iterate um app gsi p pre).2.emptyHits,
          (iterate um app gsi p pre).2.ch ++ before.flatMap (expand um) ++
            ar.Records.map (fun r => r.Data)⟩) ∧
      (ar.Records.map (fun r => r.Data)).length = ar.Records.length ∧
      ∀ (after : List Record) (rest : List Poll), ∃ tail,
        (iterate um app gsi p
          (pre ++ ⟨.ok ⟨before ++ record :: after, next⟩, now⟩ :: rest)).2.ch =
          (iterate um app gsi p pre).2.ch ++ before.flatMap (expand um) ++
            ar.Records.map (fun r => r.Data) ++ tail) ∧
    (∀ e, um record.Data = .error e →
      iterate um app gsi p (pre ++ [⟨.ok ⟨before ++ [record], next⟩, now⟩]) =
        (.running, ⟨next, (iterate um app gsi p pre).2.emptyHits,
          (iterate um app gsi p pre).2.ch ++ before.flatMap (expand um) ++ [record.Data]⟩) ∧
      ∀ (after : List Record) (rest : List Poll), ∃ tail,
        (iterate um app gsi p
          (pre ++ ⟨.ok ⟨before ++ record :: after, next⟩, now⟩ :: rest)).2.ch =
          (iterate um app gsi p pre).2.ch ++ before.flatMap (expand um) ++ [record.Data]
            ++ tail) := by
  obtain ⟨h1, h2⟩ := iterate_record_sent um app gsi p pre before record next now hrun hbefore
    hpass
  constructor
  · intro ar har
    have he : expand um record = ar.Records.map (fun r => r.Data) := by simp [expand, har]
    rw [he] at h1 h2
    exact ⟨h1, by simp, h2⟩
  · intro e herr
    have he : expand um record = [record.Data] := by simp [expand, herr]
    rw [he] at h1 h2
    exact ⟨h1, h2⟩

/-- A concrete case of C4: after a batch and an empty reply, an aggregate of
two sub-records that arrives at the end timestamp, behind a plain record;
the decoder accepts the aggregate and rejects the plain payload. -/
theorem iterate_expands_record_witness :
    (iterate sampleUnmarshal sampleApp sampleService withEnd
      [okPoll [⟨10, [1, 2]⟩], okPoll []]).1 = .running ∧
    sampleUnmarshal [0, 7, 8] = .ok ⟨[⟨[7]⟩, ⟨[8]⟩]⟩ ∧
    iterate sampleUnmarshal sampleApp sampleService withEnd
      ([okPoll [⟨10, [1, 2]⟩], okPoll []] ++
        [⟨.ok ⟨[⟨20, [4]⟩] ++ [⟨50, [0, 7, 8]⟩], some "itr-2"⟩, 1000⟩]) =
      (.running, ⟨some "itr-2", 1, [[1, 2], [4], [7], [8]]⟩) :=
  ⟨by decide, rfl,
    ((iterate_expands_record sampleUnmarshal sampleApp sampleService withEnd
      [okPoll [⟨10, [1, 2]⟩], okPoll []] [⟨20, [4]⟩] ⟨50, [0, 7, 8]⟩ (some "itr-2") 1000
      (by decide) (by decide) (by decide)).1 ⟨[⟨[7]⟩, ⟨[8]⟩]⟩ rfl).1⟩

/-- C5: without an end timestamp and on any finite run of successful
replies, empty ones included in any number and place, `iterate` has not
returned, `isOver` is false on every call, and the payloads sent are the
expansions of all records in poll order then batch order: nothing is
dropped, duplicated or reordered. -/
theorem iterate_no_end_emits_all (um : Unmarshal) (app : App)
    (gsi : GetShardIteratorInput → Except Error (Option String)) (p : IterateParams)
    (itr0 : Option String) (polls : List Poll)
    (hE : p.EndTimestamp = 0) (hgsi : gsi (shardIteratorInput app p) = .ok itr0)
    (hok : ∀ poll ∈ polls, poll.succeeded = true) :
    (iterate um app gsi p polls).1 = .running ∧
    (iterate um app gsi p polls).2.ch = (pollRecords polls).flatMap (expand um) ∧
    (iterate um app gsi p polls).2.emptyHits = 0 ∧
    (∀ hits t empty, isOver p hits t empty = (false, hits)) := by
  rw [iterate_eq um app gsi p itr0 hgsi]
  obtain ⟨itr, h⟩ := iterateLoop_no_end um p hE polls ⟨itr0, 0, []⟩ hok
  rw [h]
  exact ⟨rfl, by simp, rfl, fun hits t empty => isOver_no_end p hE hits t empty⟩

/-- A concrete case of C5: replies with more than 100 empty ones. -/
theorem iterate_no_end_emits_all_witness :
    noEnd.EndTimestamp = 0 ∧ (∀ poll ∈ mixedPolls, poll.succeeded = true) ∧
    100 ≤ countEmpty mixedPolls ∧
    (iterate sampleUnmarshal sampleApp sampleService noEnd mixedPolls).1 = .running ∧
    (iterate sampleUnmarshal sampleApp sampleService noEnd mixedPolls).2.ch =
      [[1, 2], [7], [8], [5]] :=
  ⟨rfl, by decide, by decide,
    (iterate_no_end_emits_all sampleUnmarshal sampleApp sampleService noEnd (some "itr-0")
      mixedPolls rfl rfl (by decide)).1,
    by decide⟩

/-- A concrete case of C6: three empty replies followed by late batches. -/
theorem iterate_end_before_all_witness :
    withEnd.EndTimestamp ≠ 0 ∧ (∀ poll ∈ latePolls, poll.succeeded = true) ∧
    (∀ r ∈ pollRecords latePolls, withEnd.EndTimestamp < r.ApproximateArrivalTimestamp) ∧
    (iterate sampleUnmarshal sampleApp sampleService withEnd latePolls).2.ch = [] ∧
    (iterate sampleUnmarshal sampleApp sampleService withEnd latePolls).1 = .returned none :=
  ⟨by decide, by decide, by decide,
    (iterate_end_before_all sampleUnmarshal sampleApp sampleService withEnd (some "itr-0")
      latePolls (by decide) rfl (by decide) (by decide)).1,
    by decide⟩

/-- A concrete case of C7: 99 empty replies split by a batch, then one more
empty reply. -/
theorem iterate_empty_counter_witness :
    withEnd.EndTimestamp ≠ 0 ∧ countEmpty spreadPolls = 99 ∧
    (iterate sampleUnmarshal sampleApp sampleService withEnd spreadPolls).1 = .running ∧
    (iterate sampleUnmarshal sampleApp sampleService withEnd (spreadPolls ++ [okPoll []])).1 =
      .returned none :=
  ⟨by decide, by decide, by decide,
    ((((iterate_empty_counter sampleUnmarshal sampleApp sampleService withEnd (some "itr-0")
      (by decide) rfl).2.2.2.2 spreadPolls (by decide)).2.2 (okPoll [])).1 rfl).2.1.mpr
      (by decide)⟩

/-- C8, amended: with an end timestamp `E` set, a record is over exactly
when it arrives strictly after `E`.  On error-free replies with fewer than
100 empty ones before the batch that holds the first record after `E`,
`iterate` returns `nil` at that record, having sent exactly the expansions
of the records before it; nothing at or after it is sent, later records of
the same batch and later replies included. -/
theorem iterate_stops_at_first_late (um : Unmarshal) (app : App)
    (gsi : GetShardIteratorInput → Except Error (Option String)) (p : IterateParams)
    (itr0 : Option String) (pre : List Poll) (before : List Record) (r : Record)
    (after : List Record) (next : Option String) (now : Time) (rest : List Poll)
    (hE : p.EndTimestamp ≠ 0) (hgsi : gsi (shardIteratorInput app p) = .ok itr0)
    (hok : ∀ poll ∈ pre, poll.succeeded = true)
    (hcount : countEmpty pre < maxEmptyIterates)
    (hpass : ∀ x ∈ pollRecords pre ++ before,
      ¬ p.EndTimestamp < x.ApproximateArrivalTimestamp)
    (hlate : p.EndTimestamp < r.ApproximateArrivalTimestamp) :
    (∀ hits t, (isOver p hits t []).1 = true ↔ p.EndTimestamp < t) ∧
    (iterate um app gsi p pre).1 = .running ∧
    (iterate um app gsi p pre).2.ch = (pollRecords pre).flatMap (expand um) ∧
    iterate um app gsi p (pre ++ ⟨.ok ⟨before ++ r :: after, next⟩, now⟩ :: rest) =
      (.returned none,
        ⟨next, countEmpty pre, (pollRecords pre ++ before).flatMap (expand um)⟩) := by
  simp only [iterate_eq um app gsi p itr0 hgsi]
  obtain ⟨itr1, hrun⟩ := iterateLoop_all_pass um p hE pre ⟨itr0, 0, []⟩ hok
    (fun x hx => hpass x (by simp [hx])) (by simpa using hcount)
  refine ⟨?_, by rw [hrun], by rw [hrun]; simp, ?_⟩
  · intro hits t
    rw [isOver_record p hE]
    simp
  · rw [iterateLoop_append, hrun]
    simp only
    rw [iterateLoop_cons_stop um p _ rest _ ⟨before ++ r :: after, next⟩ before r after rfl rfl
      (fun y hy => by
        rw [isOver_record p hE]
        simpa using hpass y (by simp [hy]))
      (by rw [isOver_record p hE]; simpa using hlate)]
    simp

/-- A concrete case of C8 as amended: a batch whose second record is the
first late one. -/
theorem iterate_stops_at_first_late_witness :
    withEnd.EndTimestamp ≠ 0 ∧
    iterate sampleUnmarshal sampleApp sampleService withEnd
      ([okPoll [⟨10, [1, 2]⟩], okPoll []] ++
        ⟨.ok ⟨[⟨50, [0, 7, 8]⟩] ++ ⟨51, [3]⟩ :: [⟨20, [4]⟩], some "itr-2"⟩, 1000⟩ ::
        [okPoll [⟨30, [5]⟩]]) =
      (.returned none, ⟨some "itr-2", 1, [[1, 2], [7], [8]]⟩) :=
  ⟨by decide,
    (iterate_stops_at_first_late sampleUnmarshal sampleApp sampleService withEnd (some "itr-0")
      [okPoll [⟨10, [1, 2]⟩], okPoll []] [⟨50, [0, 7, 8]⟩] ⟨51, [3]⟩ [⟨20, [4]⟩] (some "itr-2")
      1000 [okPoll [⟨30, [5]⟩]] (by decide) rfl (by decide) (by decide) (by decide)
      (by decide)).2.2.2⟩

/-- C8 as stated fails: after 100 empty replies `iterate` has returned with
nothing sent, though a record at instant 10 comes before the first record
after the end timestamp 50. -/
theorem iterate_stops_at_first_late_counterexample :
    withEnd.EndTimestamp ≠ 0 ∧ (∀ poll ∈ starvedPolls, poll.succeeded = true) ∧
    pollRecords starvedPolls = [⟨10, [1, 2]⟩, ⟨60, [3]⟩] ∧
    iterate sampleUnmarshal sampleApp sampleService withEnd starvedPolls =
      (.returned none, ⟨some "itr-next", 100, []⟩) ∧
    ¬ StopsAtFirstLate sampleUnmarshal sampleApp sampleService withEnd starvedPolls := by
  refine ⟨by decide, by decide, by decide, by decide, ?_⟩
  intro h
  have h1 := (h [⟨10, [1, 2]⟩] ⟨60, [3]⟩ [] (by decide) (by decide) (by decide)).2
  revert h1
  decide

/-! ## Fan-in writer -/

theorem flush_all (w : BufWriter) : w.Flush.all = w.all ∧ w.Flush.buf = [] := by
  simp [BufWriter.Flush, BufWriter.all]

theorem writeStep_all (w : BufWriter) (p : Bytes) :
    (w.writeStep p).1.all ++ (w.writeStep p).2 = w.all ++ p := by
  unfold BufWriter.writeStep
  by_cases h : w.Buffered = 0
  · have hb : w.buf = [] := List.length_eq_zero.mp h
    simp [h, hb, BufWriter.all]
  · simp [h, BufWriter.all, BufWriter.Flush, List.append_assoc]

theorem writeLoop_all (fuel : Nat) (w : BufWriter) (p : Bytes) :
    (BufWriter.writeLoop fuel w p).1.all ++ (BufWriter.writeLoop fuel w p).2 = w.all ++ p := by
  induction fuel generalizing w p with
  | zero => simp [BufWriter.writeLoop]
  | succ n ih =>
    unfold BufWriter.writeLoop
    by_cases h : p.length > w.Available
    · simp only [h, if_true]
      rw [ih, writeStep_all]
    · simp [h]

/-- After one turn of the loop either nothing is left or the buffer is empty. -/
theorem writeStep_left (w : BufWriter) (p : Bytes) :
    (w.writeStep p).2 = [] ∨ (w.writeStep p).1.Buffered = 0 := by
  unfold BufWriter.writeStep
  by_cases h : w.Buffered = 0
  · left; rw [if_pos h]
  · right; rw [if_neg h]; rfl

theorem writeStep_empty (w : BufWriter) (p : Bytes) (h : w.Buffered = 0) :
    (w.writeStep p).2 = [] := by
  unfold BufWriter.writeStep
  rw [if_pos h]

/-- Two turns of the loop in `Writer.Write` always reach its exit condition. -/
theorem writeLoop_done (w : BufWriter) (p : Bytes) :
    (BufWriter.writeLoop 2 w p).2.length ≤ (BufWriter.writeLoop 2 w p).1.Available := by
  simp only [BufWriter.writeLoop]
  by_cases h : p.length > w.Available
  · simp only [h, if_true]
    by_cases h2 : (w.writeStep p).2.length > (w.writeStep p).1.Available
    · simp only [h2, if_true]
      rcases writeStep_left w p with h3 | h3
      · rw [h3] at h2; simp at h2
      · rw [writeStep_empty _ _ h3]
        exact Nat.zero_le _
    · simp only [h2, if_false]; omega
  · simp only [h, if_false]; omega

theorem write_all (w : BufWriter) (p : Bytes) : (w.Write p).all = w.all ++ p := by
  have h1 := writeLoop_all 2 w p
  have h2 := writeLoop_done w p
  unfold BufWriter.Write
  simp only [BufWriter.all] at h1 ⊢
  rw [Nat.min_eq_right h2, List.take_length, ← List.append_assoc]
  exact h1

theorem write_record_all (app : App) (w : BufWriter) (b : Bytes) :
    (if app.AppendLF then (w.Write b).Write LF else w.Write b).all =
      w.all ++ (b ++ separator app) := by
  cases h : app.AppendLF <;> simp [separator, h, write_all, List.append_assoc]

theorem writerLoop_plain {Value : Type} (codec : Codec Value) (app : App)
    (hdec : app.DecodeAsMsgPack = false) (events : List WriterEvent) (w : BufWriter) :
    (writerLoop codec app events w).all =
      w.all ++ (payloads events).flatMap (fun b => b ++ separator app) := by
  induction events generalizing w with
  | nil => simp [writerLoop, payloads]
  | cons ev rest ih =>
    cases ev with
    | tick =>
      simp only [writerLoop, payloads]
      rw [ih, (flush_all w).1]
    | recv b =>
      simp only [writerLoop, payloads, hdec, Bool.false_eq_true, if_false]
      rw [ih, write_record_all]
      simp [List.flatMap_cons, List.append_assoc]

theorem writer_all {Value : Type} (codec : Codec Value) (app : App)
    (events : List WriterEvent) :
    (writer codec app events).wr = (writerLoop codec app events NewWriter).all ∧
    (writer codec app events).buf = [] := by
  simp [writer, BufWriter.Flush, BufWriter.all]

theorem payloads_map_recv (bs : List Bytes) : payloads (bs.map WriterEvent.recv) = bs := by
  induction bs with
  | nil => simp [payloads]
  | cons b rest ih => simp [payloads, ih]

/-- C9: with re-encoding off, after the final flush the sink holds exactly
`p1 ++ s ++ ... ++ pn ++ s` for the payloads received, `s` being the newline
byte when `AppendLF` is set and empty otherwise; the buffer is empty, the
ticks of the flusher change nothing, and the single record `hello` with the
separator on gives the bytes of `hello\n`. -/
theorem writer_plain_output {Value : Type} (codec : Codec Value) (app : App)
    (events : List WriterEvent) (hdec : app.DecodeAsMsgPack = false) :
    (writer codec app events).wr =
      (payloads events).flatMap (fun b => b ++ separator app) ∧
    (writer codec app events).buf = [] ∧
    writer codec app events = writer codec app ((payloads events).map WriterEvent.recv) ∧
    (separator app = if app.AppendLF then [10] else []) ∧
    (∀ name : String, (writer codec ⟨name, true, false⟩ [.recv (stringBytes "hello")]).wr =
      stringBytes "hello\n") := by
  have h := fun evs => writer_all codec app evs
  have hp := fun evs => writerLoop_plain codec app hdec evs NewWriter
  have hwr : ∀ evs, (writer codec app evs).wr =
      (payloads evs).flatMap (fun b => b ++ separator app) := by
    intro evs
    rw [(h evs).1, hp evs]
    simp [NewWriter, BufWriter.all]
  refine ⟨hwr events, (h events).2, ?_, rfl, ?_⟩
  · have e1 : ∀ a b : BufWriter, a.wr = b.wr → a.buf = b.buf → a = b := by
      intro a b h1 h2
      cases a; cases b; simp_all
    apply e1
    · rw [hwr, hwr, payloads_map_recv]
    · rw [(h events).2, (h _).2]
  · intro name
    have key : stringBytes "hello" ++ LF = stringBytes "hello\n" := by decide
    rw [(writer_all codec ⟨name, true, false⟩ _).1,
      writerLoop_plain codec ⟨name, true, false⟩ rfl]
    simp [NewWriter, BufWriter.all, payloads, separator, key]

/-- A concrete case of C9: three payloads, one of them empty, with ticks in
between. -/
theorem writer_plain_output_witness :
    sampleApp.DecodeAsMsgPack = false ∧
    (writer sampleCodec sampleApp [.recv [104, 105], .tick, .recv [], .recv [33], .tick]).wr =
      [104, 105, 10, 10, 33, 10] :=
  ⟨rfl, (writer_plain_output sampleCodec sampleApp
    [.recv [104, 105], .tick, .recv [], .recv [33], .tick] rfl).1⟩

theorem writerLoop_reencode {Value : Type} (codec : Codec Value) (app : App)
    (hdec : app.DecodeAsMsgPack = true) (pre : List WriterEvent) (w : BufWriter)
    (hpre : ∀ x ∈ payloads pre, (reencode codec x).isSome = true) :
    (∀ b post, reencode codec b = none →
      writerLoop codec app (pre ++ .recv b :: post) w = writerLoop codec app pre w) ∧
    (writerLoop codec app pre w).all =
      w.all ++ ((payloads pre).filterMap (reencode codec)).flatMap
        (fun j => j ++ separator app) := by
  induction pre generalizing w with
  | nil =>
    refine ⟨?_, by simp [writerLoop, payloads]⟩
    intro b post hb
    simp only [List.nil_append, writerLoop, hdec, if_true]
    cases h1 : codec.msgpackUnmarshal b with
    | error e => rfl
    | ok v =>
      cases h2 : codec.jsonMarshal v with
      | error e => simp [h2]
      | ok j => simp [reencode, h1, h2] at hb
  | cons ev rest ih =>
    cases ev with
    | tick =>
      obtain ⟨i1, i2⟩ := ih w.Flush (by simpa [payloads] using hpre)
      refine ⟨?_, ?_⟩
      · intro b post hb
        simp only [List.cons_append, writerLoop]
        exact i1 b post hb
      · simp only [writerLoop, payloads]
        rw [i2, (flush_all w).1]
    | recv c =>
      have hc := hpre c (by simp [payloads])
      have hrest : ∀ x ∈ payloads rest, (reencode codec x).isSome = true :=
        fun x hx => hpre x (by simp [payloads, hx])
      cases h1 : codec.msgpackUnmarshal c with
      | error e => simp [reencode, h1] at hc
      | ok v =>
        cases h2 : codec.jsonMarshal v with
        | error e => simp [reencode, h1, h2] at hc
        | ok j =>
          have hj : reencode codec c = some j := by simp [reencode, h1, h2]
          obtain ⟨i1, i2⟩ := ih (if app.AppendLF then (w.Write j).Write LF else w.Write j) hrest
          refine ⟨?_, ?_⟩
          · intro b post hb
            simp only [List.cons_append, writerLoop, hdec, if_true, h1, h2]
            exact i1 b post hb
          · simp only [writerLoop, payloads, hdec, if_true, h1, h2]
            rw [i2, write_record_all]
            simp [List.filterMap_cons, hj, List.flatMap_cons, List.append_assoc]

theorem filterMap_length_of_isSome {α β : Type} (f : α → Option β) (xs : List α)
    (h : ∀ x ∈ xs, (f x).isSome = true) : (xs.filterMap f).length = xs.length := by
  induction xs with
  | nil => simp
  | cons x rest ih =>
    obtain ⟨j, hj⟩ := Option.isSome_iff_exists.mp (h x (by simp))
    simp [List.filterMap_cons, hj, ih (fun y hy => h y (by simp [hy]))]

/-- C10: with re-encoding on, when the payload `b` is the first whose msgpack
decode or JSON encode fails, the writer stops there: the sink holds exactly
the JSON encodings of the payloads before `b`, each followed by the
separator, flushed on return, and nothing for `b` or for any later event. -/
theorem writer_stops_at_first_failure {Value : Type} (codec : Codec Value) (app : App)
    (pre : List WriterEvent) (b : Bytes) (post : List WriterEvent)
    (hdec : app.DecodeAsMsgPack = true)
    (hpre : ∀ x ∈ payloads pre, (reencode codec x).isSome = true)
    (hb : reencode codec b = none) :
    (writer codec app (pre ++ .recv b :: post)).wr =
      ((payloads pre).filterMap (reencode codec)).flatMap (fun j => j ++ separator app) ∧
    (writer codec app (pre ++ .recv b :: post)).buf = [] ∧
    writer codec app (pre ++ .recv b :: post) = writer codec app pre ∧
    ((payloads pre).filterMap (reencode codec)).length = (payloads pre).length := by
  obtain ⟨h1, h2⟩ := writerLoop_reencode codec app hdec pre NewWriter hpre
  have hw : writer codec app (pre ++ .recv b :: post) = writer codec app pre := by
    simp only [writer, h1 b post hb]
  refine ⟨?_, ?_, hw, ?_⟩
  · rw [hw, (writer_all codec app pre).1, h2]
    simp [NewWriter, BufWriter.all]
  · rw [hw]
    exact (writer_all codec app pre).2
  · exact filterMap_length_of_isSome _ _ hpre

/-- A concrete case of C10: a two-byte payload that the sample decoder
rejects. -/
theorem writer_stops_at_first_failure_witness :
    (⟨"stream", true, true⟩ : App).DecodeAsMsgPack = true ∧
    reencode sampleCodec [1, 2] = none ∧
    (writer sampleCodec ⟨"stream", true, true⟩
      ([.recv [1], .tick, .recv [2]] ++ .recv [1, 2] :: [.recv [3], .tick])).wr =
      [49, 10, 50, 10] :=
  ⟨rfl, by decide,
    (writer_stops_at_first_failure sampleCodec ⟨"stream", true, true⟩
      [.recv [1], .tick, .recv [2]] [1, 2] [.recv [3], .tick] rfl (by decide) (by decide)).1⟩

end Ktail
